import Mathlib

/-!
Verification of the task-tracker hierarchical task store.

Shallow embedding of the Python sources:
  src/task_tracker/schemas.py  (TaskStatus)
  src/task_tracker/tasks.py    (Task: add_subtask, find, close, update, to_dict, from_dict)
  src/task_tracker/tree.py     (TaskTree: index, get, add_subtask, close, update,
                                to_dict, from_dict)
  src/task_tracker/database.py (InMemoryDatabase: create_tree, get_task, create_task,
                                delete_task)

Modelling conventions, applied uniformly:
  - A Python Task object graph is rendered as an immutable tree value.  The
    parent back-reference is not stored: per the design, ownership flows
    parent to child through the child list, and a reachable node's parent is
    the unique node listing it among its subtasks (derived here by
    parentIdOf).
  - The id to node index (a Python dict holding references to live nodes) is
    an association list of (id, node) snapshots.  A Python in-place mutation
    of the node with id x is rendered as rewriting the node with id x
    (modifyAt x f) in the root and in every index snapshot, which coincides
    with reference semantics whenever node ids are globally unique, as they
    are for uuid4-generated ids.
  - uuid4 id generation is modelled by passing the fresh id explicitly;
    freshness (the id differs from all existing ids) is a hypothesis where a
    theorem needs it.
  - datetime values are never interpreted by this code, so deadlines are
    opaque optional strings.
  - A raised KeyError / ValueError is an Except.error carrying the message.
-/

namespace TaskTracker

/-- TaskStatus from schemas.py: todo, in_progress, done, cancelled. -/
inductive TaskStatus where
  | todo
  | in_progress
  | done
  | cancelled
deriving DecidableEq, Repr

/-- The .value string of a TaskStatus member. -/
def TaskStatus.value : TaskStatus → String
  | .todo => "todo"
  | .in_progress => "in_progress"
  | .done => "done"
  | .cancelled => "cancelled"

/-- The TaskStatus(str) enum constructor; none models the raised ValueError
for a string outside the enum. -/
def TaskStatus.ofValue (s : String) : Option TaskStatus :=
  if s = "todo" then some .todo
  else if s = "in_progress" then some .in_progress
  else if s = "done" then some .done
  else if s = "cancelled" then some .cancelled
  else none

/-- Task from tasks.py.  Fields in source order (parent omitted, see the
modelling conventions above): description, dod, status, id, subtasks,
close_reason, deadline, assignee. -/
inductive Task where
  | mk (id : String) (description : String) (dod : String) (status : TaskStatus)
       (close_reason : Option String) (deadline : Option String)
       (assignee : Option String) (subtasks : List Task)
deriving Repr

def Task.id : Task → String
  | .mk i _ _ _ _ _ _ _ => i

def Task.description : Task → String
  | .mk _ d _ _ _ _ _ _ => d

def Task.dod : Task → String
  | .mk _ _ dd _ _ _ _ _ => dd

def Task.status : Task → TaskStatus
  | .mk _ _ _ st _ _ _ _ => st

def Task.close_reason : Task → Option String
  | .mk _ _ _ _ cr _ _ _ => cr

def Task.deadline : Task → Option String
  | .mk _ _ _ _ _ dl _ _ => dl

def Task.assignee : Task → Option String
  | .mk _ _ _ _ _ _ a _ => a

def Task.subtasks : Task → List Task
  | .mk _ _ _ _ _ _ _ subs => subs

/-- Task.add_subtask from tasks.py: child = Task(description, dod, parent=self,
deadline=deadline, assignee=assignee); self.subtasks.append(child); return child.
The uuid4 default id is the explicit freshId argument.  Returns the updated
self together with the child. -/
def Task.add_subtask (self : Task) (description : String) (dod : String)
    (deadline : Option String) (assignee : Option String) (freshId : String) :
    Task × Task :=
  match self with
  | .mk i d dd st cr dl a subs =>
    let child := Task.mk freshId description dod .todo none deadline assignee []
    (.mk i d dd st cr dl a (subs ++ [child]), child)

mutual

/-- Task.find from tasks.py: if self.id == task_id return self; else first
non-None result among the subtasks, depth first. -/
def Task.find (self : Task) (task_id : String) : Option Task :=
  match self with
  | .mk i _ _ _ _ _ _ subs =>
    if i = task_id then some self else findList subs task_id

/-- The for-loop of Task.find over a subtask list. -/
def findList (ts : List Task) (task_id : String) : Option Task :=
  match ts with
  | [] => none
  | t :: rest =>
    match Task.find t task_id with
    | some found => some found
    | none => findList rest task_id

end

/-- The two field assignments performed by Task.close once its status check
has passed: self.status = status; self.close_reason = reason. -/
def closeFields (status : TaskStatus) (reason : Option String) : Task → Task
  | .mk i d dd _ _ dl a subs => .mk i d dd status reason dl a subs

/-- Task.close from tasks.py: raises ValueError unless status is DONE or
CANCELLED, otherwise sets status and close_reason. -/
def Task.close (self : Task) (status : TaskStatus) (reason : Option String) :
    Except String Task :=
  if status = .done ∨ status = .cancelled then
    .ok (closeFields status reason self)
  else
    .error "Only DONE or CANCELLED are allowed for close"

/-- The keyword arguments of Task.update, one optional slot per Task
attribute a caller may name; none models an omitted key or an explicit None
value (both leave the attribute untouched, since Task.update skips None). -/
structure UpdateKwargs where
  mk ::
  id : Option String
  description : Option String
  dod : Option String
  status : Option TaskStatus
  close_reason : Option String
  deadline : Option String
  assignee : Option String
  subtasks : Option (List Task)
deriving Repr

/-- The empty keyword dictionary. -/
def UpdateKwargs.none' : UpdateKwargs :=
  ⟨none, none, none, none, none, none, none, none⟩

/-- Task.update from tasks.py: for key, value in kwargs, if hasattr(self, key)
and value is not None then setattr(self, key, value).  Every slot of
UpdateKwargs is an existing Task attribute, so each present value overwrites
the current one; keys are distinct, so iteration order is irrelevant. -/
def Task.update (self : Task) (kw : UpdateKwargs) : Task :=
  match self with
  | .mk i d dd st cr dl a subs =>
    .mk (kw.id.getD i) (kw.description.getD d) (kw.dod.getD dd)
        (kw.status.getD st) ((kw.close_reason.map some).getD cr)
        ((kw.deadline.map some).getD dl) ((kw.assignee.map some).getD a)
        (kw.subtasks.getD subs)

/-- The nested dictionary produced by Task.to_dict, keys in source order:
id, description, dod, status (a string), close_reason, subtasks, deadline,
assignee. -/
inductive TaskDict where
  | mk (id : String) (description : String) (dod : String) (status : String)
       (close_reason : Option String) (subtasks : List TaskDict)
       (deadline : Option String) (assignee : Option String)
deriving Repr

mutual

/-- Task.to_dict from tasks.py. -/
def Task.to_dict : Task → TaskDict
  | .mk i d dd st cr dl a subs =>
    .mk i d dd st.value cr (toDictList subs) dl a

/-- The list comprehension of Task.to_dict over subtasks. -/
def toDictList : List Task → List TaskDict
  | [] => []
  | t :: rest => t.to_dict :: toDictList rest

end

mutual

/-- Task.from_dict from tasks.py; none models the ValueError raised by
TaskStatus(data["status"]) on a string outside the enum. -/
def Task.from_dict : TaskDict → Option Task
  | .mk i d dd st cr subs dl a =>
    match TaskStatus.ofValue st with
    | none => none
    | some stv =>
      match fromDictList subs with
      | none => none
      | some ts => some (.mk i d dd stv cr dl a ts)

/-- The list comprehension of Task.from_dict over serialized subtasks. -/
def fromDictList : List TaskDict → Option (List Task)
  | [] => some []
  | d :: rest =>
    match Task.from_dict d, fromDictList rest with
    | some t, some ts => some (t :: ts)
    | _, _ => none

end

/-- Lookup in a Python dict with string keys, first matching entry. -/
def dget {α : Type} (m : List (String × α)) (k : String) : Option α :=
  match m with
  | [] => none
  | (k', v) :: rest => if k' = k then some v else dget rest k

/-- Assignment d[k] = v in a Python dict: replace in place when the key is
present, append otherwise. -/
def dinsert {α : Type} (m : List (String × α)) (k : String) (v : α) :
    List (String × α) :=
  match m with
  | [] => [(k, v)]
  | (k', v') :: rest =>
    if k' = k then (k, v) :: rest else (k', v') :: dinsert rest k v

/-- d.pop(k, None) in a Python dict: drop the entry for k if present. -/
def dpop {α : Type} (m : List (String × α)) (k : String) : List (String × α) :=
  m.filter (fun kv => kv.1 ≠ k)

mutual

/-- The node rewriting that renders a Python in-place mutation of the object
with id x: apply f to the topmost node carrying id x, leave everything else
intact.  With unique ids this is exactly reference-aliased mutation. -/
def modifyAt (x : String) (f : Task → Task) (t : Task) : Task :=
  match t with
  | .mk i d dd st cr dl a subs =>
    if i = x then f t else .mk i d dd st cr dl a (modifyAtList x f subs)

/-- modifyAt mapped over a subtask list. -/
def modifyAtList (x : String) (f : Task → Task) (ts : List Task) : List Task :=
  match ts with
  | [] => []
  | t :: rest => modifyAt x f t :: modifyAtList x f rest

end

mutual

/-- The ids of all nodes of a tree, preorder. -/
def allIds (t : Task) : List String :=
  match t with
  | .mk i _ _ _ _ _ _ subs => i :: allIdsList subs

/-- allIds over a subtask list. -/
def allIdsList (ts : List Task) : List String :=
  match ts with
  | [] => []
  | t :: rest => allIds t ++ allIdsList rest

end

mutual

/-- The task.parent back-reference, derived: the id of the first node in
preorder listing x among its immediate subtasks; none for the root or for an
id absent from the tree. -/
def parentIdOf (t : Task) (x : String) : Option String :=
  match t with
  | .mk i _ _ _ _ _ _ subs =>
    if subs.any (fun c => c.id = x) then some i
    else parentIdOfList subs x

/-- parentIdOf over a subtask list. -/
def parentIdOfList (ts : List Task) (x : String) : Option String :=
  match ts with
  | [] => none
  | t :: rest =>
    match parentIdOf t x with
    | some p => some p
    | none => parentIdOfList rest x

end

/-- TaskTree from tree.py: the root task plus the id to node index. -/
structure TaskTree where
  mk ::
  root : Task
  index : List (String × Task)
deriving Repr

mutual

/-- TaskTree._rebuild_index from tree.py: self._index[node.id] = node, then
recurse into the subtasks; m is the dict being filled. -/
def rebuildIndex (m : List (String × Task)) (node : Task) :
    List (String × Task) :=
  match node with
  | .mk _ _ _ _ _ _ _ subs => rebuildIndexList (dinsert m node.id node) subs

/-- The for-loop of _rebuild_index over a subtask list. -/
def rebuildIndexList (m : List (String × Task)) (ts : List Task) :
    List (String × Task) :=
  match ts with
  | [] => m
  | t :: rest => rebuildIndexList (rebuildIndex m t) rest

end

/-- TaskTree.__init__ from tree.py: store the root and build the index from
an empty dict. -/
def TaskTree.new (root : Task) : TaskTree :=
  ⟨root, rebuildIndex [] root⟩

/-- TaskTree.get from tree.py: self._index.get(task_id). -/
def TaskTree.get (t : TaskTree) (task_id : String) : Option Task :=
  dget t.index task_id

/-- The in-place effect of self.subtasks.append(child) inside
Task.add_subtask, as a function on the parent node. -/
def growChild (child : Task) : Task → Task
  | .mk i d dd st cr dl a subs => .mk i d dd st cr dl a (subs ++ [child])

/-- TaskTree.add_subtask from tree.py: KeyError when parent_id is absent from
the index; otherwise parent.add_subtask(...) followed by
self._index[child.id] = child.  The in-place growth of the parent object is
rendered by rewriting the node with id parent_id in the root and in every
index snapshot. -/
def TaskTree.add_subtask (t : TaskTree) (parent_id : String) (desc : String)
    (dod : String) (deadline : Option String) (assignee : Option String)
    (freshId : String) : Except String (TaskTree × Task) :=
  match dget t.index parent_id with
  | none => .error ("Parent id " ++ parent_id ++ " not found in tree")
  | some _ =>
    let child := Task.mk freshId desc dod .todo none deadline assignee []
    let root' := modifyAt parent_id (growChild child) t.root
    let index' :=
      t.index.map (fun kv => (kv.1, modifyAt parent_id (growChild child) kv.2))
    .ok (⟨root', dinsert index' freshId child⟩, child)

/-- TaskTree.close from tree.py: task = self.get(task_id); if task:
task.close(status, reason).  A missing id is a silent no-op; an invalid
status propagates the ValueError raised before any field is written. -/
def TaskTree.close (t : TaskTree) (task_id : String) (status : TaskStatus)
    (reason : Option String) : Except String TaskTree :=
  match dget t.index task_id with
  | none => .ok t
  | some task =>
    match task.close status reason with
    | .error e => .error e
    | .ok _ =>
      .ok ⟨modifyAt task_id (closeFields status reason) t.root,
           t.index.map (fun kv =>
             (kv.1, modifyAt task_id (closeFields status reason) kv.2))⟩

/-- TaskTree.update from tree.py: KeyError when task_id is absent; otherwise
task.update(**kwargs), then self._index.clear() and a full
_rebuild_index(self.root). -/
def TaskTree.update (t : TaskTree) (task_id : String) (kw : UpdateKwargs) :
    Except String TaskTree :=
  match dget t.index task_id with
  | none => .error ("Task id " ++ task_id ++ " not found")
  | some _ =>
    let root' := modifyAt task_id (fun n => n.update kw) t.root
    .ok ⟨root', rebuildIndex [] root'⟩

/-- TaskTree.to_dict from tree.py: self.root.to_dict(). -/
def TaskTree.to_dict (t : TaskTree) : TaskDict :=
  t.root.to_dict

/-- TaskTree.from_dict from tree.py: root = Task.from_dict(data); cls(root),
which rebuilds a fresh index. -/
def TaskTree.from_dict (data : TaskDict) : Option TaskTree :=
  (Task.from_dict data).map TaskTree.new

/-- InMemoryDatabase from database.py: the dict of trees plus the counter
used to mint tree ids. -/
structure InMemoryDatabase where
  mk ::
  trees : List (String × TaskTree)
  tree_counter : Nat
deriving Repr

/-- InMemoryDatabase.create_tree from database.py: increment the counter,
build a one-node tree whose root holds the name and dod "Root"; the root's
uuid4 id is the explicit rootId argument. -/
def InMemoryDatabase.create_tree (db : InMemoryDatabase) (name : String)
    (rootId : String) : InMemoryDatabase × String :=
  let tree_id := toString (db.tree_counter + 1)
  let root_task := Task.mk rootId name "Root" .todo none none none []
  (⟨dinsert db.trees tree_id (TaskTree.new root_task), db.tree_counter + 1⟩,
   tree_id)

/-- InMemoryDatabase.get_task from database.py: KeyError for a missing tree
or task, otherwise task.to_dict(). -/
def InMemoryDatabase.get_task (db : InMemoryDatabase) (tree_id : String)
    (task_id : String) : Except String TaskDict :=
  match dget db.trees tree_id with
  | none => .error ("Tree " ++ tree_id ++ " not found")
  | some tree =>
    match tree.get task_id with
    | none => .error ("Task " ++ task_id ++ " not found in tree " ++ tree_id)
    | some task => .ok task.to_dict

/-- InMemoryDatabase.create_task from database.py: KeyError for a missing
tree or parent, otherwise tree.add_subtask and the new task id. -/
def InMemoryDatabase.create_task (db : InMemoryDatabase) (tree_id : String)
    (parent_id : String) (description : String) (dod : String)
    (deadline : Option String) (assignee : Option String) (freshId : String) :
    Except String (InMemoryDatabase × String) :=
  match dget db.trees tree_id with
  | none => .error ("Tree " ++ tree_id ++ " not found")
  | some tree =>
    match tree.get parent_id with
    | none =>
      .error ("Parent task " ++ parent_id ++ " not found in tree " ++ tree_id)
    | some _ =>
      match tree.add_subtask parent_id description dod deadline assignee freshId with
      | .error e => .error e
      | .ok (tree', task) =>
        .ok (⟨dinsert db.trees tree_id tree', db.tree_counter⟩, task.id)

/-- The in-place effect of parent.subtasks = [st for st in parent.subtasks
if st.id != task_id] inside delete_task, as a function on the parent node. -/
def dropChild (task_id : String) : Task → Task
  | .mk i d dd st cr dl a subs =>
    .mk i d dd st cr dl a (subs.filter (fun c => c.id ≠ task_id))

/-- The successful non-root branch of InMemoryDatabase.delete_task: remove
the task from the aliased parent object's child list, then
tree._index.pop(task_id, None). -/
def deleteFromTree (tree : TaskTree) (pid : String) (task_id : String) :
    TaskTree :=
  ⟨modifyAt pid (dropChild task_id) tree.root,
   dpop (tree.index.map (fun kv => (kv.1, modifyAt pid (dropChild task_id) kv.2)))
     task_id⟩

/-- InMemoryDatabase.delete_task from database.py: KeyError for a missing
tree or task; when the task has a parent, remove it from the parent's child
list and pop its own index entry; when the task has no parent and equals the
tree's root (with unique ids: has the root's id), silently pop the whole
tree from the store; otherwise do nothing.  The task.parent back-reference
is derived from the current root (parentIdOf), which coincides with the
Python pointer for every task reachable from the root — the states the
consistency hypotheses of the theorems below describe. -/
def InMemoryDatabase.delete_task (db : InMemoryDatabase) (tree_id : String)
    (task_id : String) : Except String InMemoryDatabase :=
  match dget db.trees tree_id with
  | none => .error ("Tree " ++ tree_id ++ " not found")
  | some tree =>
    match tree.get task_id with
    | none => .error ("Task " ++ task_id ++ " not found in tree " ++ tree_id)
    | some task =>
      match parentIdOf tree.root task_id with
      | some pid =>
        .ok ⟨dinsert db.trees tree_id (deleteFromTree tree pid task_id),
             db.tree_counter⟩
      | none =>
        if task.id = tree.root.id then
          .ok ⟨dpop db.trees tree_id, db.tree_counter⟩
        else
          .ok db

/-! Ghost state used by the specifications. -/

/-- Ids of all nodes are pairwise distinct, as uuid4 generation guarantees. -/
def NoDupIds (t : Task) : Prop := (allIds t).Nodup

/-- The index holds at most one entry per key, as a Python dict does. -/
def keysNodup (t : TaskTree) : Prop := (t.index.map Prod.fst).Nodup

/-- Index lookup and recursive search agree on every id: the index maps
exactly the reachable ids to their nodes. -/
def indexAgrees (t : TaskTree) : Prop :=
  ∀ k, dget t.index k = t.root.find k

/-- The index/tree consistency invariant of the specification. -/
def Consistent (t : TaskTree) : Prop :=
  NoDupIds t.root ∧ keysNodup t ∧ indexAgrees t

/-! Dictionary lemmas. -/

theorem dget_dinsert_self {α : Type} (m : List (String × α)) (k : String)
    (v : α) : dget (dinsert m k v) k = some v := by
  induction m with
  | nil => simp [dinsert, dget]
  | cons kv rest ih =>
    by_cases h : kv.1 = k
    · simp [dinsert, dget, h]
    · simpa [dinsert, dget, h] using ih

theorem dget_dinsert_ne {α : Type} (m : List (String × α)) (k k' : String)
    (v : α) (h : k' ≠ k) : dget (dinsert m k v) k' = dget m k' := by
  induction m with
  | nil => simp [dinsert, dget, Ne.symm h]
  | cons kv rest ih =>
    by_cases h2 : kv.1 = k
    · subst h2
      simp [dinsert, dget, Ne.symm h]
    · simp only [dinsert, if_neg h2]
      by_cases h3 : kv.1 = k'
      · simp [dget, h3]
      · simpa [dget, h3] using ih

theorem dget_map {α β : Type} (m : List (String × α)) (g : α → β)
    (k : String) :
    dget (m.map (fun kv => (kv.1, g kv.2))) k = (dget m k).map g := by
  induction m with
  | nil => simp [dget]
  | cons kv rest ih =>
    by_cases h : kv.1 = k
    · simp [dget, h]
    · simpa [dget, h] using ih

theorem dget_dpop_self {α : Type} (m : List (String × α)) (k : String) :
    dget (dpop m k) k = none := by
  induction m with
  | nil => simp [dpop, dget]
  | cons kv rest ih =>
    by_cases h : kv.1 = k
    · simpa [dpop, List.filter, h] using ih
    · simpa [dpop, List.filter, h, dget] using ih

theorem dget_dpop_ne {α : Type} (m : List (String × α)) (k k' : String)
    (h : k' ≠ k) : dget (dpop m k) k' = dget m k' := by
  induction m with
  | nil => simp [dpop, dget]
  | cons kv rest ih =>
    by_cases h2 : kv.1 = k
    · subst h2
      simpa [dpop, List.filter, dget, Ne.symm h] using ih
    · by_cases h3 : kv.1 = k'
      · subst h3
        simp [dpop, List.filter, h2, dget]
      · simpa [dpop, List.filter, h2, dget, h3] using ih

theorem not_key_of_dget_none {α : Type} (m : List (String × α)) (k : String)
    (h : dget m k = none) : k ∉ m.map Prod.fst := by
  induction m with
  | nil => simp
  | cons kv rest ih =>
    by_cases h2 : kv.1 = k
    · simp [dget, h2] at h
    · simp only [dget, if_neg h2] at h
      simpa [Ne.symm h2] using ih h

theorem dinsert_eq_append {α : Type} (m : List (String × α)) (k : String)
    (v : α) (hk : k ∉ m.map Prod.fst) : dinsert m k v = m ++ [(k, v)] := by
  induction m with
  | nil => rfl
  | cons kv rest ih =>
    simp only [List.map_cons, List.mem_cons] at hk
    push_neg at hk
    simp [dinsert, Ne.symm hk.1, ih hk.2]

theorem keys_dinsert {α : Type} (m : List (String × α)) (k : String) (v : α)
    (hnd : (m.map Prod.fst).Nodup) (hk : k ∉ m.map Prod.fst) :
    ((dinsert m k v).map Prod.fst).Nodup := by
  rw [dinsert_eq_append m k v hk]
  simp only [List.map_append, List.map_cons, List.map_nil]
  refine List.Nodup.append hnd (by simp) ?_
  intro a ha hb
  simp only [List.mem_singleton] at hb
  subst hb
  exact hk ha

theorem keys_map {α β : Type} (m : List (String × α)) (g : α → β) :
    (m.map (fun kv => (kv.1, g kv.2))).map Prod.fst = m.map Prod.fst := by
  induction m with
  | nil => rfl
  | cons kv rest ih => simp [ih]

theorem keys_dpop_nodup {α : Type} (m : List (String × α)) (k : String)
    (hnd : (m.map Prod.fst).Nodup) : ((dpop m k).map Prod.fst).Nodup := by
  unfold dpop
  exact hnd.sublist (List.Sublist.map Prod.fst (List.filter_sublist m))

/-! Basic facts about find, allIds, modifyAt and parentIdOf. -/

theorem id_mem_allIds (t : Task) : t.id ∈ allIds t := by
  match t with
  | .mk i d dd st cr dl a subs => simp [allIds, Task.id]

theorem allIdsList_append (ts us : List Task) :
    allIdsList (ts ++ us) = allIdsList ts ++ allIdsList us := by
  induction ts with
  | nil => simp [allIdsList]
  | cons t rest ih => simp [allIdsList, ih]

theorem mem_allIdsList {y : String} {ts : List Task} :
    y ∈ allIdsList ts ↔ ∃ t, t ∈ ts ∧ y ∈ allIds t := by
  induction ts with
  | nil => simp [allIdsList]
  | cons t rest ih =>
    simp only [allIdsList, List.mem_append, ih, List.mem_cons]
    constructor
    · rintro (h | ⟨u, hu, hy⟩)
      · exact ⟨t, Or.inl rfl, h⟩
      · exact ⟨u, Or.inr hu, hy⟩
    · rintro ⟨u, hu | hu, hy⟩
      · subst hu; exact Or.inl hy
      · exact Or.inr ⟨u, hu, hy⟩

theorem findList_append (ts us : List Task) (k : String) :
    findList (ts ++ us) k =
      match findList ts k with
      | some n => some n
      | none => findList us k := by
  induction ts with
  | nil => simp [findList]
  | cons t rest ih =>
    simp only [List.cons_append, findList]
    cases h : Task.find t k <;> simp [h, ih]

mutual

theorem find_id (t : Task) (k : String) (n : Task)
    (h : Task.find t k = some n) : n.id = k := by
  match t with
  | .mk i d dd st cr dl a subs =>
    by_cases h2 : i = k
    · simp only [Task.find, if_pos h2] at h
      cases h
      simpa [Task.id] using h2
    · simp only [Task.find, if_neg h2] at h
      exact findList_id subs k n h

theorem findList_id (ts : List Task) (k : String) (n : Task)
    (h : findList ts k = some n) : n.id = k := by
  match ts with
  | [] => simp [findList] at h
  | t :: rest =>
    simp only [findList] at h
    cases h3 : Task.find t k with
    | some m => rw [h3] at h; cases h; exact find_id t k _ h3
    | none => rw [h3] at h; exact findList_id rest k n h

end

mutual

theorem mem_of_find (t : Task) (k : String) (n : Task)
    (h : Task.find t k = some n) : k ∈ allIds t := by
  match t with
  | .mk i d dd st cr dl a subs =>
    by_cases h2 : i = k
    · simp [allIds, h2]
    · simp only [Task.find, if_neg h2] at h
      simp only [allIds, List.mem_cons]
      exact Or.inr (mem_of_findList subs k n h)

theorem mem_of_findList (ts : List Task) (k : String) (n : Task)
    (h : findList ts k = some n) : k ∈ allIdsList ts := by
  match ts with
  | [] => simp [findList] at h
  | t :: rest =>
    simp only [findList] at h
    simp only [allIdsList, List.mem_append]
    cases h3 : Task.find t k with
    | some m => exact Or.inl (mem_of_find t k m h3)
    | none => rw [h3] at h; exact Or.inr (mem_of_findList rest k n h)

end

mutual

theorem find_isSome_of_mem (t : Task) (k : String) (h : k ∈ allIds t) :
    (Task.find t k).isSome := by
  match t with
  | .mk i d dd st cr dl a subs =>
    by_cases h2 : i = k
    · simp [Task.find, h2]
    · simp only [allIds, List.mem_cons] at h
      rcases h with h | h
      · exact absurd h.symm h2
      · simp only [Task.find, if_neg h2]
        exact findList_isSome_of_mem subs k h

theorem findList_isSome_of_mem (ts : List Task) (k : String)
    (h : k ∈ allIdsList ts) : (findList ts k).isSome := by
  match ts with
  | [] => simp [allIdsList] at h
  | t :: rest =>
    simp only [allIdsList, List.mem_append] at h
    simp only [findList]
    cases h3 : Task.find t k with
    | some m => simp
    | none =>
      rcases h with h | h
      · have := find_isSome_of_mem t k h
        rw [h3] at this
        simp at this
      · exact findList_isSome_of_mem rest k h

end

theorem find_none_of_not_mem (t : Task) (k : String) (h : k ∉ allIds t) :
    Task.find t k = none := by
  cases h3 : Task.find t k with
  | none => rfl
  | some n => exact absurd (mem_of_find t k n h3) h

theorem findList_none_of_not_mem (ts : List Task) (k : String)
    (h : k ∉ allIdsList ts) : findList ts k = none := by
  cases h3 : findList ts k with
  | none => rfl
  | some n => exact absurd (mem_of_findList ts k n h3) h

mutual

theorem allIds_sub_of_find (t : Task) (k : String) (n : Task)
    (h : Task.find t k = some n) : ∀ y ∈ allIds n, y ∈ allIds t := by
  match t with
  | .mk i d dd st cr dl a subs =>
    by_cases h2 : i = k
    · simp only [Task.find, if_pos h2] at h
      cases h
      exact fun y hy => hy
    · simp only [Task.find, if_neg h2] at h
      intro y hy
      simp only [allIds, List.mem_cons]
      exact Or.inr (allIds_sub_of_findList subs k n h y hy)

theorem allIds_sub_of_findList (ts : List Task) (k : String) (n : Task)
    (h : findList ts k = some n) : ∀ y ∈ allIds n, y ∈ allIdsList ts := by
  match ts with
  | [] => simp [findList] at h
  | t :: rest =>
    simp only [findList] at h
    intro y hy
    simp only [allIdsList, List.mem_append]
    cases h3 : Task.find t k with
    | some m =>
      rw [h3] at h
      cases h
      exact Or.inl (allIds_sub_of_find t k _ h3 y hy)
    | none =>
      rw [h3] at h
      exact Or.inr (allIds_sub_of_findList rest k n h y hy)

end

mutual

theorem modifyAt_absent (x : String) (g : Task → Task) (t : Task)
    (h : x ∉ allIds t) : modifyAt x g t = t := by
  match t with
  | .mk i d dd st cr dl a subs =>
    simp only [allIds, List.mem_cons] at h
    push_neg at h
    simp only [modifyAt, if_neg (Ne.symm h.1)]
    rw [modifyAtList_absent x g subs h.2]

theorem modifyAtList_absent (x : String) (g : Task → Task) (ts : List Task)
    (h : x ∉ allIdsList ts) : modifyAtList x g ts = ts := by
  match ts with
  | [] => rfl
  | t :: rest =>
    simp only [allIdsList, List.mem_append] at h
    push_neg at h
    simp only [modifyAtList]
    rw [modifyAt_absent x g t h.1, modifyAtList_absent x g rest h.2]

end

mutual

theorem parentIdOf_mem (t : Task) (x p : String)
    (h : parentIdOf t x = some p) : x ∈ allIds t ∧ p ∈ allIds t := by
  match t with
  | .mk i d dd st cr dl a subs =>
    simp only [parentIdOf] at h
    by_cases h2 : subs.any (fun c => c.id = x)
    · rw [if_pos h2] at h
      cases h
      rcases List.any_eq_true.mp h2 with ⟨c, hc, hcx⟩
      have hx : x ∈ allIdsList subs := by
        refine mem_allIdsList.mpr ⟨c, hc, ?_⟩
        have : c.id = x := by simpa using hcx
        rw [← this]
        exact id_mem_allIds c
      exact ⟨by simp [allIds, hx], by simp [allIds, Task.id]⟩
    · rw [if_neg h2] at h
      have := parentIdOfList_mem subs x p h
      exact ⟨by simp [allIds, this.1], by simp [allIds, this.2]⟩

theorem parentIdOfList_mem (ts : List Task) (x p : String)
    (h : parentIdOfList ts x = some p) :
    x ∈ allIdsList ts ∧ p ∈ allIdsList ts := by
  match ts with
  | [] => simp [parentIdOfList] at h
  | t :: rest =>
    simp only [parentIdOfList] at h
    cases h3 : parentIdOf t x with
    | some q =>
      rw [h3] at h
      cases h
      have := parentIdOf_mem t x p h3
      exact ⟨by simp [allIdsList, this.1], by simp [allIdsList, this.2]⟩
    | none =>
      rw [h3] at h
      have := parentIdOfList_mem rest x p h
      exact ⟨by simp [allIdsList, this.1], by simp [allIdsList, this.2]⟩

end

/-! How modifyAt interacts with find. -/

theorem modifyAt_self (x : String) (g : Task → Task) (n : Task)
    (h : n.id = x) : modifyAt x g n = g n := by
  match n with
  | .mk i d dd st cr dl a subs =>
    simp only [Task.id] at h
    simp [modifyAt, h]

theorem modifyAt_id (x : String) (g : Task → Task) (n : Task)
    (hid : ∀ m, (g m).id = m.id) : (modifyAt x g n).id = n.id := by
  match n with
  | .mk i d dd st cr dl a subs =>
    by_cases h : i = x
    · simp [modifyAt, h, hid]
    · simp [modifyAt, h, Task.id]

theorem modifyAt_status (x : String) (g : Task → Task) (n : Task)
    (hst : ∀ m, (g m).status = m.status) :
    (modifyAt x g n).status = n.status := by
  match n with
  | .mk i d dd st cr dl a subs =>
    by_cases h : i = x
    · simp [modifyAt, h, hst]
    · simp [modifyAt, h, Task.status]

theorem growChild_id (c n : Task) : (growChild c n).id = n.id := by
  match n with
  | .mk i d dd st cr dl a subs => simp [growChild, Task.id]

theorem growChild_status (c n : Task) :
    (growChild c n).status = n.status := by
  match n with
  | .mk i d dd st cr dl a subs => simp [growChild, Task.status]

theorem growChild_subtasks (c n : Task) :
    (growChild c n).subtasks = n.subtasks ++ [c] := by
  match n with
  | .mk i d dd st cr dl a subs => simp [growChild, Task.subtasks]

theorem allIds_growChild (c n : Task) :
    allIds (growChild c n) = allIds n ++ allIds c := by
  match n with
  | .mk i d dd st cr dl a subs =>
    simp only [growChild, allIds, allIdsList_append]
    simp [allIdsList]

theorem find_growChild (c n : Task) (k : String) (hnk : n.id ≠ k)
    (hck : Task.find c k = none) :
    Task.find (growChild c n) k = Task.find n k := by
  match n with
  | .mk i d dd st cr dl a subs =>
    simp only [Task.id] at hnk
    simp only [growChild, Task.find, if_neg hnk, findList_append]
    cases h : findList subs k with
    | some m => simp
    | none => simp [findList, hck]

theorem find_leaf_ne (c : Task) (k : String) (hc : c.subtasks = [])
    (hk : c.id ≠ k) : Task.find c k = none := by
  match c with
  | .mk i d dd st cr dl a subs =>
    simp only [Task.subtasks] at hc
    simp only [Task.id] at hk
    subst hc
    simp [Task.find, hk, findList]

theorem find_of_id_eq (t : Task) (k : String) (h : t.id = k) :
    Task.find t k = some t := by
  match t with
  | .mk i d dd st cr dl a subs =>
    simp only [Task.id] at h
    simp [Task.find, h]

mutual

theorem find_modifyAt (t : Task) (x k : String) (g : Task → Task)
    (hnd : (allIds t).Nodup)
    (hid : ∀ n, (g n).id = n.id)
    (hf : ∀ n, Task.find t x = some n → n.id ≠ k →
      Task.find (g n) k = Task.find n k) :
    Task.find (modifyAt x g t) k = (Task.find t k).map (modifyAt x g) := by
  match t with
  | .mk i d dd st cr dl a subs =>
    have hnd2 : i ∉ allIdsList subs ∧ (allIdsList subs).Nodup := by
      simpa [allIds, List.nodup_cons] using hnd
    by_cases hix : i = x
    · have hfx : Task.find (Task.mk i d dd st cr dl a subs) x =
          some (Task.mk i d dd st cr dl a subs) := by
        simp [Task.find, hix]
      rw [modifyAt_self x g _ (by simpa [Task.id] using hix)]
      by_cases hik : i = k
      · have hone : modifyAt x g (Task.mk i d dd st cr dl a subs) =
            g (Task.mk i d dd st cr dl a subs) :=
          modifyAt_self x g _ (by simpa [Task.id] using hix)
        have : (g (Task.mk i d dd st cr dl a subs)).id = k := by
          rw [hid]; simpa [Task.id] using hik
        rw [find_of_id_eq _ _ this,
          find_of_id_eq (Task.mk i d dd st cr dl a subs) k
            (by simpa [Task.id] using hik)]
        show some (g (Task.mk i d dd st cr dl a subs)) =
          some (modifyAt x g (Task.mk i d dd st cr dl a subs))
        rw [hone]
      · rw [hf _ hfx (by simpa [Task.id] using hik)]
        simp only [Task.find, if_neg hik]
        cases h2 : findList subs k with
        | none => simp
        | some n =>
          have habs : modifyAt x g n = n := modifyAt_absent x g n (by
            intro hxmem
            exact hnd2.1 (by
              rw [hix]
              exact allIds_sub_of_findList subs k n h2 x hxmem))
          simp [habs]
    · simp only [modifyAt, if_neg hix]
      by_cases hik : i = k
      · subst hik
        simp [Task.find, modifyAt, hix]
      · simp only [Task.find, if_neg hik]
        exact findList_modifyAt subs x k g hnd2.2 hid (by
          intro n hn hnk
          refine hf n ?_ hnk
          simpa [Task.find, hix] using hn)

theorem findList_modifyAt (ts : List Task) (x k : String) (g : Task → Task)
    (hnd : (allIdsList ts).Nodup)
    (hid : ∀ n, (g n).id = n.id)
    (hf : ∀ n, findList ts x = some n → n.id ≠ k →
      Task.find (g n) k = Task.find n k) :
    findList (modifyAtList x g ts) k = (findList ts k).map (modifyAt x g) := by
  match ts with
  | [] => simp [findList, modifyAtList]
  | t :: rest =>
    have hnd2 : (allIds t).Nodup ∧ (allIdsList rest).Nodup ∧
        ∀ y, y ∈ allIds t → y ∉ allIdsList rest := by
      rw [show allIdsList (t :: rest) = allIds t ++ allIdsList rest from rfl,
        List.nodup_append] at hnd
      exact ⟨hnd.1, hnd.2.1, fun y hy hy2 => hnd.2.2 hy hy2⟩
    simp only [modifyAtList, findList]
    cases hx1 : Task.find t x with
    | some m =>
      have hx_mem : x ∈ allIds t := mem_of_find t x m hx1
      have hrest_abs : modifyAtList x g rest = rest :=
        modifyAtList_absent x g rest (fun hmem => hnd2.2.2 x hx_mem hmem)
      rw [find_modifyAt t x k g hnd2.1 hid (by
        intro n hn hnk
        exact hf n (by simp [findList, hn]) hnk)]
      cases h2 : Task.find t k with
      | some n =>
        rfl
      | none =>
        rw [hrest_abs]
        cases h3 : findList rest k with
        | none => rfl
        | some n =>
          have habs : modifyAt x g n = n :=
            modifyAt_absent x g n (fun hxmem =>
              hnd2.2.2 x hx_mem (allIds_sub_of_findList rest k n h3 x hxmem))
          simp [habs]
    | none =>
      have hx_not : x ∉ allIds t := by
        intro hmem
        have := find_isSome_of_mem t x hmem
        rw [hx1] at this
        simp at this
      rw [modifyAt_absent x g t hx_not]
      cases h2 : Task.find t k with
      | some n =>
        have habs : modifyAt x g n = n :=
          modifyAt_absent x g n
            (fun hxmem => hx_not (allIds_sub_of_find t k n h2 x hxmem))
        simp [habs]
      | none =>
        exact findList_modifyAt rest x k g hnd2.2.1 hid (by
          intro n hn hnk
          exact hf n (by simp [findList, hx1, hn]) hnk)

end

theorem parentIdOf_none_of_not_mem (t : Task) (k : String)
    (h : k ∉ allIds t) : parentIdOf t k = none := by
  cases h3 : parentIdOf t k with
  | none => rfl
  | some p => exact absurd (parentIdOf_mem t k p h3).1 h

theorem parentIdOfList_none_of_not_mem (ts : List Task) (k : String)
    (h : k ∉ allIdsList ts) : parentIdOfList ts k = none := by
  cases h3 : parentIdOfList ts k with
  | none => rfl
  | some p => exact absurd (parentIdOfList_mem ts k p h3).1 h

theorem parentIdOfList_append (ts us : List Task) (k : String) :
    parentIdOfList (ts ++ us) k =
      match parentIdOfList ts k with
      | some p => some p
      | none => parentIdOfList us k := by
  induction ts with
  | nil => simp [parentIdOfList]
  | cons t rest ih =>
    simp only [List.cons_append, parentIdOfList]
    cases h : parentIdOf t k <;> simp [h, ih]

theorem modifyAtList_any_id (x k : String) (g : Task → Task) (ts : List Task)
    (hid : ∀ n, (g n).id = n.id) :
    ((modifyAtList x g ts).any (fun c => c.id = k)) =
      (ts.any (fun c => c.id = k)) := by
  induction ts with
  | nil => rfl
  | cons t rest ih =>
    simp only [modifyAtList, List.any_cons, ih]
    rw [modifyAt_id x g t hid]

mutual

theorem find_modify_fresh (t : Task) (x y : String) (g : Task → Task)
    (nx : Task) (hnd : (allIds t).Nodup) (hx : Task.find t x = some nx)
    (hy : y ∉ allIds t) :
    Task.find (modifyAt x g t) y = Task.find (g nx) y := by
  match t with
  | .mk i d dd st cr dl a subs =>
    have hnd2 : i ∉ allIdsList subs ∧ (allIdsList subs).Nodup := by
      simpa [allIds, List.nodup_cons] using hnd
    have hy2 : y ≠ i ∧ y ∉ allIdsList subs := by
      simpa [allIds, List.mem_cons, not_or] using hy
    by_cases hix : i = x
    · have : nx = Task.mk i d dd st cr dl a subs := by
        rw [Task.find, if_pos hix] at hx
        exact (Option.some_inj.mp hx).symm
      subst this
      rw [modifyAt_self x g _ (by simpa [Task.id] using hix)]
    · rw [Task.find, if_neg hix] at hx
      simp only [modifyAt, if_neg hix, Task.find, if_neg (Ne.symm hy2.1)]
      exact findList_modify_fresh subs x y g nx hnd2.2 hx hy2.2

theorem findList_modify_fresh (ts : List Task) (x y : String)
    (g : Task → Task) (nx : Task) (hnd : (allIdsList ts).Nodup)
    (hx : findList ts x = some nx) (hy : y ∉ allIdsList ts) :
    findList (modifyAtList x g ts) y = Task.find (g nx) y := by
  match ts with
  | [] => simp [findList] at hx
  | t :: rest =>
    have hnd2 : (allIds t).Nodup ∧ (allIdsList rest).Nodup ∧
        ∀ z, z ∈ allIds t → z ∉ allIdsList rest := by
      rw [show allIdsList (t :: rest) = allIds t ++ allIdsList rest from rfl,
        List.nodup_append] at hnd
      exact ⟨hnd.1, hnd.2.1, fun z hz hz2 => hnd.2.2 hz hz2⟩
    have hy2 : y ∉ allIds t ∧ y ∉ allIdsList rest := by
      simpa [allIdsList, List.mem_append, not_or] using hy
    simp only [findList] at hx
    simp only [modifyAtList, findList]
    cases hx1 : Task.find t x with
    | some m =>
      rw [hx1] at hx
      have hmn : m = nx := Option.some_inj.mp hx
      subst hmn
      have hx_mem : x ∈ allIds t := mem_of_find t x m hx1
      rw [find_modify_fresh t x y g m hnd2.1 hx1 hy2.1]
      cases h2 : Task.find (g m) y with
      | some f => rfl
      | none =>
        show findList (modifyAtList x g rest) y = none
        rw [modifyAtList_absent x g rest
          (fun hmem => hnd2.2.2 x hx_mem hmem)]
        exact findList_none_of_not_mem rest y hy2.2
    | none =>
      rw [hx1] at hx
      have hx_not : x ∉ allIds t := by
        intro hmem
        have := find_isSome_of_mem t x hmem
        rw [hx1] at this
        simp at this
      rw [modifyAt_absent x g t hx_not,
        find_none_of_not_mem t y hy2.1]
      exact findList_modify_fresh rest x y g nx hnd2.2.1 hx hy2.2

end

mutual

theorem allIds_modify_grow (t : Task) (x : String) (c : Task)
    (hnd : (allIds t).Nodup) (hx : x ∈ allIds t) :
    (allIds (modifyAt x (growChild c) t)).Perm (allIds t ++ allIds c) := by
  match t with
  | .mk i d dd st cr dl a subs =>
    have hnd2 : i ∉ allIdsList subs ∧ (allIdsList subs).Nodup := by
      simpa [allIds, List.nodup_cons] using hnd
    by_cases hix : i = x
    · rw [modifyAt_self x (growChild c) _ (by simpa [Task.id] using hix),
        allIds_growChild]
    · have hx2 : x ∈ allIdsList subs := by
        rcases (by simpa [allIds, List.mem_cons] using hx : x = i ∨
          x ∈ allIdsList subs) with h | h
        · exact absurd h.symm hix
        · exact h
      simp only [modifyAt, if_neg hix, allIds, List.cons_append]
      exact (allIdsList_modify_grow subs x c hnd2.2 hx2).cons i

theorem allIdsList_modify_grow (ts : List Task) (x : String) (c : Task)
    (hnd : (allIdsList ts).Nodup) (hx : x ∈ allIdsList ts) :
    (allIdsList (modifyAtList x (growChild c) ts)).Perm
      (allIdsList ts ++ allIds c) := by
  match ts with
  | [] => simp [allIdsList] at hx
  | t :: rest =>
    have hnd2 : (allIds t).Nodup ∧ (allIdsList rest).Nodup ∧
        ∀ z, z ∈ allIds t → z ∉ allIdsList rest := by
      rw [show allIdsList (t :: rest) = allIds t ++ allIdsList rest from rfl,
        List.nodup_append] at hnd
      exact ⟨hnd.1, hnd.2.1, fun z hz hz2 => hnd.2.2 hz hz2⟩
    by_cases hx1 : x ∈ allIds t
    · have hrest : modifyAtList x (growChild c) rest = rest :=
        modifyAtList_absent x (growChild c) rest
          (fun hmem => hnd2.2.2 x hx1 hmem)
      have hperm := allIds_modify_grow t x c hnd2.1 hx1
      show (allIds (modifyAt x (growChild c) t) ++
        allIdsList (modifyAtList x (growChild c) rest)).Perm
        ((allIds t ++ allIdsList rest) ++ allIds c)
      rw [hrest]
      refine (hperm.append_right (allIdsList rest)).trans ?_
      rw [List.append_assoc, List.append_assoc]
      exact List.Perm.append_left (allIds t) List.perm_append_comm
    · have hx2 : x ∈ allIdsList rest := by
        rcases (by simpa [allIdsList, List.mem_append] using hx : x ∈ allIds t ∨
          x ∈ allIdsList rest) with h | h
        · exact absurd h hx1
        · exact h
      have ht : modifyAt x (growChild c) t = t :=
        modifyAt_absent x (growChild c) t hx1
      have hperm := allIdsList_modify_grow rest x c hnd2.2.1 hx2
      show (allIds (modifyAt x (growChild c) t) ++
        allIdsList (modifyAtList x (growChild c) rest)).Perm
        ((allIds t ++ allIdsList rest) ++ allIds c)
      rw [ht, List.append_assoc]
      exact hperm.append_left (allIds t)

end

mutual

theorem parentIdOf_modify_grow (t : Task) (x k : String) (c : Task)
    (hck : c.id ≠ k) (hcleaf : c.subtasks = []) :
    parentIdOf (modifyAt x (growChild c) t) k = parentIdOf t k := by
  match t with
  | .mk i d dd st cr dl a subs =>
    by_cases hix : i = x
    · simp only [modifyAt, if_pos hix, growChild, parentIdOf,
        List.any_append, List.any_cons, List.any_nil]
      have hc : (c.id = k : Bool) = false := by
        simp [hck]
      rw [hc]
      simp only [Bool.or_false]
      by_cases h2 : subs.any (fun n => n.id = k)
      · rw [if_pos h2, if_pos h2]
      · rw [if_neg h2, if_neg h2, parentIdOfList_append]
        have : parentIdOfList [c] k = none := by
          simp only [parentIdOfList, parentIdOf_none_of_not_mem c k (by
            intro hmem
            match c, hcleaf with
            | .mk ci cd cdd cst ccr cdl ca _, rfl =>
              simp only [allIds, allIdsList, List.mem_cons,
                List.not_mem_nil, or_false] at hmem
              exact hck (by simpa [Task.id] using hmem.symm))]
        rw [this]
        cases parentIdOfList subs k <;> rfl
    · simp only [modifyAt, if_neg hix, parentIdOf]
      rw [modifyAtList_any_id x k (growChild c) subs (growChild_id c)]
      by_cases h2 : subs.any (fun n => n.id = k)
      · rw [if_pos h2, if_pos h2]
      · rw [if_neg h2, if_neg h2]
        exact parentIdOfList_modify_grow subs x k c hck hcleaf

theorem parentIdOfList_modify_grow (ts : List Task) (x k : String) (c : Task)
    (hck : c.id ≠ k) (hcleaf : c.subtasks = []) :
    parentIdOfList (modifyAtList x (growChild c) ts) k =
      parentIdOfList ts k := by
  match ts with
  | [] => rfl
  | t :: rest =>
    simp only [modifyAtList, parentIdOfList]
    rw [parentIdOf_modify_grow t x k c hck hcleaf]
    cases parentIdOf t k with
    | some p => rfl
    | none => exact parentIdOfList_modify_grow rest x k c hck hcleaf

end

mutual

theorem parentIdOf_modify_grow_new (t : Task) (x : String) (c : Task)
    (hfresh : c.id ∉ allIds t) (hx : x ∈ allIds t) :
    parentIdOf (modifyAt x (growChild c) t) c.id = some x := by
  match t with
  | .mk i d dd st cr dl a subs =>
    by_cases hix : i = x
    · simp only [modifyAt, if_pos hix, growChild, parentIdOf,
        List.any_append, List.any_cons, List.any_nil]
      simp [hix]
    · have hx2 : x ∈ allIdsList subs := by
        rcases (by simpa [allIds, List.mem_cons] using hx : x = i ∨
          x ∈ allIdsList subs) with h | h
        · exact absurd h.symm hix
        · exact h
      have hfresh2 : c.id ∉ allIdsList subs := by
        intro hmem
        exact hfresh (by simp [allIds, hmem])
      simp only [modifyAt, if_neg hix, parentIdOf]
      rw [modifyAtList_any_id x c.id (growChild c) subs (growChild_id c)]
      rw [if_neg (by
        intro hany
        rcases List.any_eq_true.mp hany with ⟨n, hn, hnid⟩
        refine hfresh2 (mem_allIdsList.mpr ⟨n, hn, ?_⟩)
        have : n.id = c.id := by simpa using hnid
        rw [← this]
        exact id_mem_allIds n)]
      exact parentIdOfList_modify_grow_new subs x c hfresh2 hx2

theorem parentIdOfList_modify_grow_new (ts : List Task) (x : String)
    (c : Task) (hfresh : c.id ∉ allIdsList ts) (hx : x ∈ allIdsList ts) :
    parentIdOfList (modifyAtList x (growChild c) ts) c.id = some x := by
  match ts with
  | [] => simp [allIdsList] at hx
  | t :: rest =>
    have hfresh2 : c.id ∉ allIds t ∧ c.id ∉ allIdsList rest := by
      simpa [allIdsList, List.mem_append, not_or] using hfresh
    simp only [modifyAtList, parentIdOfList]
    by_cases hx1 : x ∈ allIds t
    · rw [parentIdOf_modify_grow_new t x c hfresh2.1 hx1]
    · have hx2 : x ∈ allIdsList rest := by
        rcases (by simpa [allIdsList, List.mem_append] using hx :
          x ∈ allIds t ∨ x ∈ allIdsList rest) with h | h
        · exact absurd h hx1
        · exact h
      rw [modifyAt_absent x (growChild c) t hx1,
        parentIdOf_none_of_not_mem t c.id hfresh2.1]
      exact parentIdOfList_modify_grow_new rest x c hfresh2.2 hx2

end

/-! The rebuilt index agrees with recursive search. -/

theorem mem_keys_dinsert {α : Type} (m : List (String × α)) (k y : String)
    (v : α) (h : y ∈ (dinsert m k v).map Prod.fst) :
    y ∈ m.map Prod.fst ∨ y = k := by
  induction m with
  | nil => simpa [dinsert] using h
  | cons kv rest ih =>
    by_cases h2 : kv.1 = k
    · simp only [dinsert, if_pos h2, List.map_cons, List.mem_cons] at h
      rcases h with h | h
      · exact Or.inr h
      · exact Or.inl (by simp [h])
    · simp only [dinsert, if_neg h2, List.map_cons, List.mem_cons] at h
      rcases h with h | h
      · exact Or.inl (by simp [h])
      · rcases ih h with h3 | h3
        · exact Or.inl (by simp [h3])
        · exact Or.inr h3

theorem keys_dinsert_nodup {α : Type} (m : List (String × α)) (k : String)
    (v : α) (hnd : (m.map Prod.fst).Nodup) :
    ((dinsert m k v).map Prod.fst).Nodup := by
  induction m with
  | nil => simp [dinsert]
  | cons kv rest ih =>
    simp only [List.map_cons, List.nodup_cons] at hnd
    by_cases h2 : kv.1 = k
    · subst h2
      simpa [dinsert, List.nodup_cons] using hnd
    · simp only [dinsert, if_neg h2, List.map_cons, List.nodup_cons]
      refine ⟨fun hmem => ?_, ih hnd.2⟩
      rcases mem_keys_dinsert rest k kv.1 v hmem with h3 | h3
      · exact hnd.1 h3
      · exact h2 h3

mutual

theorem keys_rebuildIndex_nodup (node : Task) (m : List (String × Task))
    (hnd : (m.map Prod.fst).Nodup) :
    ((rebuildIndex m node).map Prod.fst).Nodup := by
  match node with
  | .mk i d dd st cr dl a subs =>
    exact keys_rebuildIndexList_nodup subs _
      (keys_dinsert_nodup m _ _ hnd)

theorem keys_rebuildIndexList_nodup (ts : List Task)
    (m : List (String × Task)) (hnd : (m.map Prod.fst).Nodup) :
    ((rebuildIndexList m ts).map Prod.fst).Nodup := by
  match ts with
  | [] => exact hnd
  | t :: rest =>
    exact keys_rebuildIndexList_nodup rest _ (keys_rebuildIndex_nodup t m hnd)

end

mutual

theorem dget_rebuildIndex (node : Task) (m : List (String × Task))
    (k : String) (hnd : (allIds node).Nodup) :
    dget (rebuildIndex m node) k =
      match Task.find node k with
      | some n => some n
      | none => dget m k := by
  match node with
  | .mk i d dd st cr dl a subs =>
    have hnd2 : i ∉ allIdsList subs ∧ (allIdsList subs).Nodup := by
      simpa [allIds, List.nodup_cons] using hnd
    have hstep := dget_rebuildIndexList subs
      (dinsert m i (Task.mk i d dd st cr dl a subs)) k hnd2.2
    rw [show rebuildIndex m (Task.mk i d dd st cr dl a subs) =
      rebuildIndexList (dinsert m i (Task.mk i d dd st cr dl a subs)) subs
      from rfl, hstep]
    by_cases hik : i = k
    · subst hik
      rw [findList_none_of_not_mem subs i hnd2.1, find_of_id_eq _ _
        (by simp [Task.id]), dget_dinsert_self]
    · rw [show Task.find (Task.mk i d dd st cr dl a subs) k =
        findList subs k from by simp [Task.find, hik]]
      cases h2 : findList subs k with
      | some n => rfl
      | none => exact dget_dinsert_ne m i k _ (Ne.symm hik)

theorem dget_rebuildIndexList (ts : List Task) (m : List (String × Task))
    (k : String) (hnd : (allIdsList ts).Nodup) :
    dget (rebuildIndexList m ts) k =
      match findList ts k with
      | some n => some n
      | none => dget m k := by
  match ts with
  | [] => rfl
  | t :: rest =>
    have hnd2 : (allIds t).Nodup ∧ (allIdsList rest).Nodup ∧
        ∀ z, z ∈ allIds t → z ∉ allIdsList rest := by
      rw [show allIdsList (t :: rest) = allIds t ++ allIdsList rest from rfl,
        List.nodup_append] at hnd
      exact ⟨hnd.1, hnd.2.1, fun z hz hz2 => hnd.2.2 hz hz2⟩
    rw [show rebuildIndexList m (t :: rest) =
      rebuildIndexList (rebuildIndex m t) rest from rfl,
      dget_rebuildIndexList rest (rebuildIndex m t) k hnd2.2.1,
      show findList (t :: rest) k =
        (match Task.find t k with
         | some found => some found
         | none => findList rest k) from rfl]
    cases h2 : findList rest k with
    | some n =>
      have hkt : Task.find t k = none := by
        refine find_none_of_not_mem t k (fun hmem => ?_)
        exact hnd2.2.2 k hmem (mem_of_findList rest k n h2)
      rw [hkt]
    | none =>
      rw [dget_rebuildIndex t m k hnd2.1]
      cases h3 : Task.find t k <;> rfl

end

/-! Field-level helpers for closeFields and Task.update. -/

theorem closeFields_id (st : TaskStatus) (r : Option String) (n : Task) :
    (closeFields st r n).id = n.id := by
  match n with
  | .mk i d dd st0 cr dl a subs => rfl

theorem closeFields_allIds (st : TaskStatus) (r : Option String) (n : Task) :
    allIds (closeFields st r n) = allIds n := by
  match n with
  | .mk i d dd st0 cr dl a subs => rfl

theorem closeFields_find (st : TaskStatus) (r : Option String) (n : Task)
    (k : String) (h : n.id ≠ k) :
    Task.find (closeFields st r n) k = Task.find n k := by
  match n with
  | .mk i d dd st0 cr dl a subs =>
    simp only [Task.id] at h
    simp [closeFields, Task.find, h]

theorem update_id (kw : UpdateKwargs) (n : Task) (h : kw.id = none) :
    (Task.update n kw).id = n.id := by
  match n with
  | .mk i d dd st0 cr dl a subs => simp [Task.update, h, Task.id]

theorem update_allIds (kw : UpdateKwargs) (n : Task) (h1 : kw.id = none)
    (h2 : kw.subtasks = none) : allIds (Task.update n kw) = allIds n := by
  match n with
  | .mk i d dd st0 cr dl a subs => simp [Task.update, h1, h2, allIds]

mutual

theorem allIds_modifyAt_preserve (x : String) (g : Task → Task) (t : Task)
    (hg : ∀ n, allIds (g n) = allIds n) :
    allIds (modifyAt x g t) = allIds t := by
  match t with
  | .mk i d dd st cr dl a subs =>
    by_cases hix : i = x
    · simp only [modifyAt, if_pos hix, hg]
    · simp only [modifyAt, if_neg hix, allIds]
      rw [allIdsList_modifyAt_preserve x g subs hg]

theorem allIdsList_modifyAt_preserve (x : String) (g : Task → Task)
    (ts : List Task) (hg : ∀ n, allIds (g n) = allIds n) :
    allIdsList (modifyAtList x g ts) = allIdsList ts := by
  match ts with
  | [] => rfl
  | t :: rest =>
    simp only [modifyAtList, allIdsList]
    rw [allIds_modifyAt_preserve x g t hg,
      allIdsList_modifyAt_preserve x g rest hg]

end

theorem find_growChild_self (c n : Task) (h1 : n.id ≠ c.id)
    (h2 : c.id ∉ allIds n) :
    Task.find (growChild c n) c.id = some c := by
  match n with
  | .mk i d dd st cr dl a subs =>
    simp only [Task.id] at h1
    have h3 : c.id ∉ allIdsList subs := by
      intro hmem
      exact h2 (by simp [allIds, hmem])
    simp only [growChild, Task.find, if_neg h1, findList_append,
      findList_none_of_not_mem subs c.id h3]
    simp [findList, find_of_id_eq c c.id rfl]
    exact fun hcontra => absurd hcontra h1

/-! Consistency across the mutating tree operations. -/

theorem new_consistent (root : Task) (hnd : NoDupIds root) :
    Consistent (TaskTree.new root) := by
  refine ⟨hnd, ?_, ?_⟩
  · show ((rebuildIndex [] root).map Prod.fst).Nodup
    exact keys_rebuildIndex_nodup root [] (by simp)
  · intro k
    show dget (rebuildIndex [] root) k = root.find k
    rw [dget_rebuildIndex root [] k hnd]
    cases h : root.find k <;> simp [dget]

theorem close_consistent (t : TaskTree) (tid : String) (st : TaskStatus)
    (r : Option String) (t' : TaskTree) (hc : Consistent t)
    (hok : t.close tid st r = .ok t') :
    Consistent t' ∧
    (t'.root = t.root ∨
      t'.root = modifyAt tid (closeFields st r) t.root) := by
  obtain ⟨hnd, hkeys, hagree⟩ := hc
  unfold TaskTree.close at hok
  cases hidx : dget t.index tid with
  | none =>
    simp only [hidx] at hok
    cases hok
    exact ⟨⟨hnd, hkeys, hagree⟩, Or.inl rfl⟩
  | some task =>
    simp only [hidx, Task.close] at hok
    by_cases hst : st = TaskStatus.done ∨ st = TaskStatus.cancelled
    · rw [if_pos hst] at hok
      simp only [] at hok
      cases hok
      refine ⟨⟨?_, ?_, ?_⟩, Or.inr rfl⟩
      · show NoDupIds (modifyAt tid (closeFields st r) t.root)
        unfold NoDupIds
        rw [allIds_modifyAt_preserve tid (closeFields st r) t.root
          (closeFields_allIds st r)]
        exact hnd
      · show ((t.index.map (fun kv =>
          (kv.1, modifyAt tid (closeFields st r) kv.2))).map Prod.fst).Nodup
        rw [keys_map]
        exact hkeys
      · intro k
        show dget (t.index.map (fun kv =>
          (kv.1, modifyAt tid (closeFields st r) kv.2))) k =
          Task.find (modifyAt tid (closeFields st r) t.root) k
        rw [dget_map, hagree k,
          find_modifyAt t.root tid k (closeFields st r) hnd
            (closeFields_id st r)
            (fun n _ hnk => closeFields_find st r n k hnk)]
    · rw [if_neg hst] at hok
      simp at hok

theorem update_ok_spec (t : TaskTree) (tid : String) (kw : UpdateKwargs)
    (t' : TaskTree) (hok : t.update tid kw = .ok t') :
    t'.root = modifyAt tid (fun n => n.update kw) t.root ∧
    t'.index = rebuildIndex [] t'.root ∧
    (NoDupIds t'.root → Consistent t') := by
  unfold TaskTree.update at hok
  cases hidx : dget t.index tid with
  | none => simp only [hidx] at hok; simp at hok
  | some task =>
    simp only [hidx] at hok
    cases hok
    refine ⟨rfl, rfl, fun hnd' => ⟨hnd', ?_, ?_⟩⟩
    · show ((rebuildIndex [] (modifyAt tid (fun n => n.update kw)
        t.root)).map Prod.fst).Nodup
      exact keys_rebuildIndex_nodup _ [] (by simp)
    · intro k
      show dget (rebuildIndex [] (modifyAt tid (fun n => n.update kw)
        t.root)) k = _
      rw [dget_rebuildIndex _ [] k hnd']
      cases h : Task.find (modifyAt tid (fun n => n.update kw) t.root) k <;>
        simp [dget]

theorem add_subtask_ok_spec (t : TaskTree) (pid desc dod : String)
    (dl asg : Option String) (fid : String) (t' : TaskTree) (child : Task)
    (hc : Consistent t) (hfresh : fid ∉ allIds t.root)
    (hok : t.add_subtask pid desc dod dl asg fid = .ok (t', child)) :
    child = Task.mk fid desc dod .todo none dl asg [] ∧
    pid ∈ allIds t.root ∧
    t'.root = modifyAt pid (growChild child) t.root ∧
    Consistent t' ∧
    (∀ y, y ∈ allIds t'.root ↔ y ∈ allIds t.root ∨ y = fid) ∧
    (∀ k, k ≠ fid → parentIdOf t'.root k = parentIdOf t.root k) ∧
    parentIdOf t'.root fid = some pid ∧
    Task.find t'.root fid = some child ∧
    (∀ k n, Task.find t.root k = some n → ∃ n2,
      Task.find t'.root k = some n2 ∧ n2.status = n.status ∧ n2.id = n.id) ∧
    (∀ np, Task.find t.root pid = some np →
      Task.find t'.root pid = some (growChild child np)) := by
  obtain ⟨hnd, hkeys, hagree⟩ := hc
  unfold TaskTree.add_subtask at hok
  cases hidx : dget t.index pid with
  | none => simp only [hidx] at hok; simp at hok
  | some parent =>
    simp only [hidx] at hok
    cases hok
    set child := Task.mk fid desc dod .todo none dl asg [] with hchild
    have hfind_pid : Task.find t.root pid = some parent := by
      rw [← hagree pid]; exact hidx
    have hpid_mem : pid ∈ allIds t.root := mem_of_find t.root pid parent hfind_pid
    have hchild_id : child.id = fid := rfl
    have hchild_leaf : child.subtasks = [] := rfl
    have hallIds_child : allIds child = [fid] := rfl
    have hperm : (allIds (modifyAt pid (growChild child) t.root)).Perm
        (allIds t.root ++ [fid]) := by
      rw [← hallIds_child]
      exact allIds_modify_grow t.root pid child hnd hpid_mem
    have hnd' : NoDupIds (modifyAt pid (growChild child) t.root) := by
      unfold NoDupIds
      rw [hperm.nodup_iff]
      rw [List.nodup_append]
      exact ⟨hnd, by simp, by
        intro y hy hy2
        simp only [List.mem_singleton] at hy2
        subst hy2
        exact hfresh hy⟩
    have hfid_ne_pid : pid ≠ fid := fun h => hfresh (h ▸ hpid_mem)
    have hfind_fid : Task.find (modifyAt pid (growChild child) t.root) fid =
        some child := by
      rw [find_modify_fresh t.root pid fid (growChild child) parent hnd
        hfind_pid hfresh]
      refine find_growChild_self child parent ?_ ?_
      · rw [hchild_id, find_id t.root pid parent hfind_pid]
        exact hfid_ne_pid
      · rw [hchild_id]
        intro hmem
        exact hfresh (allIds_sub_of_find t.root pid parent hfind_pid fid hmem)
    have hmain : ∀ k, k ≠ fid →
        Task.find (modifyAt pid (growChild child) t.root) k =
          (Task.find t.root k).map (modifyAt pid (growChild child)) := by
      intro k hk
      exact find_modifyAt t.root pid k (growChild child) hnd
        (growChild_id child)
        (fun n _ hnk => find_growChild child n k hnk
          (find_leaf_ne child k hchild_leaf
            (by rw [hchild_id]; exact Ne.symm hk)))
    refine ⟨rfl, hpid_mem, rfl, ⟨hnd', ?_, ?_⟩, ?_, ?_, ?_, hfind_fid, ?_, ?_⟩
    · show ((dinsert (t.index.map (fun kv =>
        (kv.1, modifyAt pid (growChild child) kv.2))) fid child).map
        Prod.fst).Nodup
      refine keys_dinsert _ fid child (by rw [keys_map]; exact hkeys) ?_
      rw [keys_map]
      refine not_key_of_dget_none t.index fid ?_
      rw [hagree fid]
      exact find_none_of_not_mem t.root fid hfresh
    · intro k
      show dget (dinsert (t.index.map (fun kv =>
        (kv.1, modifyAt pid (growChild child) kv.2))) fid child) k =
        Task.find (modifyAt pid (growChild child) t.root) k
      by_cases hk : k = fid
      · subst hk
        rw [dget_dinsert_self, hfind_fid]
      · rw [dget_dinsert_ne _ fid k child hk, dget_map, hagree k, hmain k hk]
    · intro y
      rw [hperm.mem_iff]
      simp
    · intro k hk
      show parentIdOf (modifyAt pid (growChild child) t.root) k =
        parentIdOf t.root k
      exact parentIdOf_modify_grow t.root pid k child
        (by rw [hchild_id]; exact Ne.symm hk) hchild_leaf
    · show parentIdOf (modifyAt pid (growChild child) t.root) fid = some pid
      have := parentIdOf_modify_grow_new t.root pid child
        (by rw [hchild_id]; exact hfresh) hpid_mem
      rw [hchild_id] at this
      exact this
    · intro k n hfindk
      have hk : k ≠ fid := by
        intro h
        subst h
        exact hfresh (mem_of_find t.root k n hfindk)
      refine ⟨modifyAt pid (growChild child) n, ?_, ?_, ?_⟩
      · rw [hmain k hk, hfindk]
        rfl
      · exact modifyAt_status pid (growChild child) n (growChild_status child)
      · exact modifyAt_id pid (growChild child) n (growChild_id child)
    · intro np hnp
      have hnp_eq : np = parent := by
        rw [hfind_pid] at hnp
        exact (Option.some_inj.mp hnp).symm
      subst hnp_eq
      rw [hmain pid hfid_ne_pid, hfind_pid]
      show some (modifyAt pid (growChild child) np) = _
      rw [modifyAt_self pid (growChild child) np
        (find_id t.root pid np hfind_pid)]

/-! Facts about deletion. -/

theorem dropChild_id (a : String) (n : Task) : (dropChild a n).id = n.id := by
  match n with
  | .mk i d dd st cr dl asg subs => rfl

theorem allIdsList_sublist (ts' ts : List Task) (h : List.Sublist ts' ts) :
    List.Sublist (allIdsList ts') (allIdsList ts) := by
  induction h with
  | slnil => simp [allIdsList]
  | cons t h ih => exact ih.trans (List.sublist_append_right _ _)
  | cons₂ t h ih => exact ih.append_left _

mutual

theorem allIds_modifyAt_sublist (x : String) (g : Task → Task) (t : Task)
    (hg : ∀ n, List.Sublist (allIds (g n)) (allIds n)) :
    List.Sublist (allIds (modifyAt x g t)) (allIds t) := by
  match t with
  | .mk i d dd st cr dl a subs =>
    by_cases hix : i = x
    · simp only [modifyAt, if_pos hix]
      exact hg _
    · simp only [modifyAt, if_neg hix]
      exact (allIdsList_modifyAt_sublist x g subs hg).cons₂ i

theorem allIdsList_modifyAt_sublist (x : String) (g : Task → Task)
    (ts : List Task) (hg : ∀ n, List.Sublist (allIds (g n)) (allIds n)) :
    List.Sublist (allIdsList (modifyAtList x g ts)) (allIdsList ts) := by
  match ts with
  | [] => simp [modifyAtList, allIdsList]
  | t :: rest =>
    exact (allIds_modifyAt_sublist x g t hg).append
      (allIdsList_modifyAt_sublist x g rest hg)

end

theorem dropChild_allIds_sublist (a : String) (n : Task) :
    List.Sublist (allIds (dropChild a n)) (allIds n) := by
  match n with
  | .mk i d dd st cr dl asg subs =>
    exact (allIdsList_sublist _ subs (List.filter_sublist subs)).cons₂ i

mutual

theorem find_sub_nodup (t : Task) (k : String) (n : Task)
    (h : Task.find t k = some n) (hnd : (allIds t).Nodup) :
    (allIds n).Nodup := by
  match t with
  | .mk i d dd st cr dl a subs =>
    by_cases h2 : i = k
    · simp only [Task.find, if_pos h2] at h
      cases h
      exact hnd
    · simp only [Task.find, if_neg h2] at h
      have hnd2 : i ∉ allIdsList subs ∧ (allIdsList subs).Nodup := by
        simpa [allIds, List.nodup_cons] using hnd
      exact findList_sub_nodup subs k n h hnd2.2

theorem findList_sub_nodup (ts : List Task) (k : String) (n : Task)
    (h : findList ts k = some n) (hnd : (allIdsList ts).Nodup) :
    (allIds n).Nodup := by
  match ts with
  | [] => simp [findList] at h
  | t :: rest =>
    have hnd2 : (allIds t).Nodup ∧ (allIdsList rest).Nodup := by
      rw [show allIdsList (t :: rest) = allIds t ++ allIdsList rest from rfl,
        List.nodup_append] at hnd
      exact ⟨hnd.1, hnd.2.1⟩
    simp only [findList] at h
    cases h3 : Task.find t k with
    | some m =>
      rw [h3] at h
      cases h
      exact find_sub_nodup t k _ h3 hnd2.1
    | none =>
      rw [h3] at h
      exact findList_sub_nodup rest k n h hnd2.2

end

mutual

theorem find_lift (t : Task) (p : String) (np : Task)
    (hnd : (allIds t).Nodup) (hp : Task.find t p = some np) :
    ∀ y n2, Task.find np y = some n2 → Task.find t y = some n2 := by
  match t with
  | .mk i d dd st cr dl a subs =>
    have hnd2 : i ∉ allIdsList subs ∧ (allIdsList subs).Nodup := by
      simpa [allIds, List.nodup_cons] using hnd
    by_cases h2 : i = p
    · simp only [Task.find, if_pos h2] at hp
      cases hp
      exact fun y n2 h => h
    · simp only [Task.find, if_neg h2] at hp
      intro y n2 hyn
      have hy_mem : y ∈ allIds np := mem_of_find np y n2 hyn
      have hy_sub : y ∈ allIdsList subs :=
        allIds_sub_of_findList subs p np hp y hy_mem
      have hiy : i ≠ y := fun h => hnd2.1 (h ▸ hy_sub)
      simp only [Task.find, if_neg hiy]
      exact findList_lift subs p np hnd2.2 hp y n2 hyn

theorem findList_lift (ts : List Task) (p : String) (np : Task)
    (hnd : (allIdsList ts).Nodup) (hp : findList ts p = some np) :
    ∀ y n2, Task.find np y = some n2 → findList ts y = some n2 := by
  match ts with
  | [] => simp [findList] at hp
  | t :: rest =>
    have hnd2 : (allIds t).Nodup ∧ (allIdsList rest).Nodup ∧
        ∀ z, z ∈ allIds t → z ∉ allIdsList rest := by
      rw [show allIdsList (t :: rest) = allIds t ++ allIdsList rest from rfl,
        List.nodup_append] at hnd
      exact ⟨hnd.1, hnd.2.1, fun z hz hz2 => hnd.2.2 hz hz2⟩
    simp only [findList] at hp ⊢
    intro y n2 hyn
    have hy_np : y ∈ allIds np := mem_of_find np y n2 hyn
    cases h3 : Task.find t p with
    | some m =>
      rw [h3] at hp
      cases hp
      rw [find_lift t p np hnd2.1 h3 y n2 hyn]
    | none =>
      rw [h3] at hp
      have hy_rest : y ∈ allIdsList rest :=
        allIds_sub_of_findList rest p np hp y hy_np
      have hyt : Task.find t y = none :=
        find_none_of_not_mem t y (fun hmem => hnd2.2.2 y hmem hy_rest)
      rw [hyt]
      exact findList_lift rest p np hnd2.2.1 hp y n2 hyn

end

theorem findList_child (ts : List Task) (a : String) (c : Task)
    (hnd : (allIdsList ts).Nodup) (hc : c ∈ ts) (hca : c.id = a) :
    findList ts a = some c := by
  induction ts with
  | nil => simp at hc
  | cons t rest ih =>
    have hnd2 : (allIds t).Nodup ∧ (allIdsList rest).Nodup ∧
        ∀ z, z ∈ allIds t → z ∉ allIdsList rest := by
      rw [show allIdsList (t :: rest) = allIds t ++ allIdsList rest from rfl,
        List.nodup_append] at hnd
      exact ⟨hnd.1, hnd.2.1, fun z hz hz2 => hnd.2.2 hz hz2⟩
    rcases List.mem_cons.mp hc with h | h
    · subst h
      simp only [findList]
      rw [find_of_id_eq c a hca]
    · have ha_rest : a ∈ allIdsList rest :=
        mem_allIdsList.mpr ⟨c, h, hca ▸ id_mem_allIds c⟩
      have hat : Task.find t a = none :=
        find_none_of_not_mem t a (fun hmem => hnd2.2.2 a hmem ha_rest)
      simp only [findList, hat]
      exact ih hnd2.2.1 h

theorem filter_removes_id (ts : List Task) (a : String)
    (hnd : (allIdsList ts).Nodup) (hex : ∃ c ∈ ts, c.id = a) :
    a ∉ allIdsList (ts.filter (fun c => c.id ≠ a)) := by
  induction ts with
  | nil => simp at hex
  | cons t rest ih =>
    have hnd2 : (allIds t).Nodup ∧ (allIdsList rest).Nodup ∧
        ∀ z, z ∈ allIds t → z ∉ allIdsList rest := by
      rw [show allIdsList (t :: rest) = allIds t ++ allIdsList rest from rfl,
        List.nodup_append] at hnd
      exact ⟨hnd.1, hnd.2.1, fun z hz hz2 => hnd.2.2 hz hz2⟩
    obtain ⟨c, hc, hca⟩ := hex
    rcases List.mem_cons.mp hc with h | h
    · subst h
      have ha_c : a ∈ allIds c := hca ▸ id_mem_allIds c
      rw [show List.filter (fun c => decide (c.id ≠ a)) (c :: rest) =
        List.filter (fun c => decide (c.id ≠ a)) rest from by
          simp [List.filter, hca]]
      intro hmem
      rcases mem_allIdsList.mp
        ((allIdsList_sublist _ rest (List.filter_sublist rest)).mem hmem) with
        ⟨c2, hc2, ha2⟩
      exact hnd2.2.2 a ha_c (mem_allIdsList.mpr ⟨c2, hc2, ha2⟩)
    · have ha_rest : a ∈ allIdsList rest :=
        mem_allIdsList.mpr ⟨c, h, hca ▸ id_mem_allIds c⟩
      have hta : a ∉ allIds t := fun hmem => hnd2.2.2 a hmem ha_rest
      by_cases hti : t.id = a
      · rw [show List.filter (fun c => decide (c.id ≠ a)) (t :: rest) =
          List.filter (fun c => decide (c.id ≠ a)) rest from by
            simp [List.filter, hti]]
        exact ih hnd2.2.1 ⟨c, h, hca⟩
      · rw [show List.filter (fun c => decide (c.id ≠ a)) (t :: rest) =
          t :: List.filter (fun c => decide (c.id ≠ a)) rest from by
            simp [List.filter, hti]]
        intro hmem
        rcases (by simpa [allIdsList, List.mem_append] using hmem :
          a ∈ allIds t ∨
          a ∈ allIdsList (List.filter (fun c => decide (c.id ≠ a)) rest)) with
          h2 | h2
        · exact hta h2
        · exact ih hnd2.2.1 ⟨c, h, hca⟩ h2

theorem findList_filter_leaf (ts : List Task) (a k : String)
    (hleaf : ∀ c ∈ ts, c.id = a → c.subtasks = []) (hk : k ≠ a) :
    findList (ts.filter (fun c => c.id ≠ a)) k = findList ts k := by
  induction ts with
  | nil => rfl
  | cons t rest ih =>
    by_cases hti : t.id = a
    · have hleaf_t : t.subtasks = [] := hleaf t (by simp) hti
      have hft : Task.find t k = none :=
        find_leaf_ne t k hleaf_t (by rw [hti]; exact Ne.symm hk)
      rw [show List.filter (fun c => decide (c.id ≠ a)) (t :: rest) =
        List.filter (fun c => decide (c.id ≠ a)) rest from by
          simp [List.filter, hti]]
      rw [show findList (t :: rest) k =
        findList rest k from by simp [findList, hft]]
      exact ih (fun c hc hca => hleaf c (List.mem_cons_of_mem _ hc) hca)
    · rw [show List.filter (fun c => decide (c.id ≠ a)) (t :: rest) =
        t :: List.filter (fun c => decide (c.id ≠ a)) rest from by
          simp [List.filter, hti]]
      simp only [findList]
      cases h3 : Task.find t k with
      | some m => rfl
      | none => exact ih (fun c hc hca => hleaf c (List.mem_cons_of_mem _ hc) hca)

mutual

theorem find_modify_drop (t : Task) (a p : String)
    (hnd : (allIds t).Nodup) (hpar : parentIdOf t a = some p) :
    Task.find (modifyAt p (dropChild a) t) a = none := by
  match t with
  | .mk i d dd st cr dl asg subs =>
    have hnd2 : i ∉ allIdsList subs ∧ (allIdsList subs).Nodup := by
      simpa [allIds, List.nodup_cons] using hnd
    simp only [parentIdOf] at hpar
    by_cases hany : subs.any (fun c => c.id = a)
    · rw [if_pos hany] at hpar
      have hpi : p = i := (Option.some_inj.mp hpar).symm
      subst hpi
      rcases List.any_eq_true.mp hany with ⟨c0, hc0, hc0a⟩
      have hc0a2 : c0.id = a := by simpa using hc0a
      have ha_subs : a ∈ allIdsList subs :=
        mem_allIdsList.mpr ⟨c0, hc0, hc0a2 ▸ id_mem_allIds c0⟩
      have hia : p ≠ a := fun h => hnd2.1 (h ▸ ha_subs)
      rw [modifyAt_self p (dropChild a) _ (by simp [Task.id])]
      show Task.find (Task.mk p d dd st cr dl asg
        (subs.filter (fun c => c.id ≠ a))) a = none
      simp only [Task.find, if_neg hia]
      exact findList_none_of_not_mem _ a
        (filter_removes_id subs a hnd2.2 ⟨c0, hc0, hc0a2⟩)
    · rw [if_neg hany] at hpar
      have hp_subs : p ∈ allIdsList subs := (parentIdOfList_mem subs a p hpar).2
      have ha_subs : a ∈ allIdsList subs := (parentIdOfList_mem subs a p hpar).1
      have hip : i ≠ p := fun h => hnd2.1 (h ▸ hp_subs)
      have hia : i ≠ a := fun h => hnd2.1 (h ▸ ha_subs)
      simp only [modifyAt, if_neg hip, Task.find, if_neg hia]
      exact findList_modify_drop subs a p hnd2.2 hpar

theorem findList_modify_drop (ts : List Task) (a p : String)
    (hnd : (allIdsList ts).Nodup) (hpar : parentIdOfList ts a = some p) :
    findList (modifyAtList p (dropChild a) ts) a = none := by
  match ts with
  | [] => simp [parentIdOfList] at hpar
  | t :: rest =>
    have hnd2 : (allIds t).Nodup ∧ (allIdsList rest).Nodup ∧
        ∀ z, z ∈ allIds t → z ∉ allIdsList rest := by
      rw [show allIdsList (t :: rest) = allIds t ++ allIdsList rest from rfl,
        List.nodup_append] at hnd
      exact ⟨hnd.1, hnd.2.1, fun z hz hz2 => hnd.2.2 hz hz2⟩
    simp only [parentIdOfList] at hpar
    simp only [modifyAtList, findList]
    cases h3 : parentIdOf t a with
    | some q =>
      rw [h3] at hpar
      have hqp : q = p := Option.some_inj.mp hpar
      subst hqp
      have hmem := parentIdOf_mem t a q h3
      rw [find_modify_drop t a q hnd2.1 h3]
      rw [modifyAtList_absent q (dropChild a) rest
        (fun hmem2 => hnd2.2.2 q hmem.2 hmem2)]
      exact findList_none_of_not_mem rest a
        (fun hmem2 => hnd2.2.2 a hmem.1 hmem2)
    | none =>
      rw [h3] at hpar
      have hmem := parentIdOfList_mem rest a p hpar
      have hpt : p ∉ allIds t := fun hmem2 =>
        hnd2.2.2 p hmem2 hmem.2
      have hat : a ∉ allIds t := fun hmem2 =>
        hnd2.2.2 a hmem2 hmem.1
      rw [modifyAt_absent p (dropChild a) t hpt,
        find_none_of_not_mem t a hat]
      exact findList_modify_drop rest a p hnd2.2.1 hpar

end

theorem delete_nonroot_spec (db : InMemoryDatabase) (tid a p : String)
    (tree : TaskTree) (hdb : dget db.trees tid = some tree)
    (hc : Consistent tree) (hpar : parentIdOf tree.root a = some p) :
    ∃ db2, db.delete_task tid a = .ok db2 ∧
      dget db2.trees tid = some (deleteFromTree tree p a) ∧
      (deleteFromTree tree p a).get a = none ∧
      Task.find (deleteFromTree tree p a).root a = none ∧
      (∀ np, Task.find tree.root p = some np →
        Task.find (deleteFromTree tree p a).root p = some (dropChild a np)) ∧
      (∀ b, b ≠ a → b ∈ allIds tree.root →
        ∃ nb, (deleteFromTree tree p a).get b = some nb) := by
  obtain ⟨hnd, hkeys, hagree⟩ := hc
  have ha_mem : a ∈ allIds tree.root := (parentIdOf_mem _ _ _ hpar).1
  obtain ⟨na, hfa⟩ : ∃ na, Task.find tree.root a = some na := by
    cases hfa : Task.find tree.root a with
    | some na => exact ⟨na, rfl⟩
    | none =>
      have := find_isSome_of_mem tree.root a ha_mem
      rw [hfa] at this
      simp at this
  have hget_a : tree.get a = some na := by
    show dget tree.index a = some na
    rw [hagree a]
    exact hfa
  refine ⟨⟨dinsert db.trees tid (deleteFromTree tree p a), db.tree_counter⟩,
    ?_, ?_, ?_, ?_, ?_, ?_⟩
  · show db.delete_task tid a = _
    unfold InMemoryDatabase.delete_task
    rw [hdb]
    simp only [hget_a, hpar]
  · exact dget_dinsert_self db.trees tid _
  · show dget (dpop (tree.index.map (fun kv =>
      (kv.1, modifyAt p (dropChild a) kv.2))) a) a = none
    exact dget_dpop_self _ a
  · exact find_modify_drop tree.root a p hnd hpar
  · intro np hnp
    show Task.find (modifyAt p (dropChild a) tree.root) p = _
    rw [find_modifyAt tree.root p p (dropChild a) hnd (dropChild_id a)
      (fun n hn hnk => absurd (find_id _ _ _ hn) hnk), hnp]
    show some (modifyAt p (dropChild a) np) = _
    rw [modifyAt_self p (dropChild a) np (find_id _ _ _ hnp)]
  · intro b hba hb_mem
    obtain ⟨nb, hfb⟩ : ∃ nb, Task.find tree.root b = some nb := by
      cases hfb : Task.find tree.root b with
      | some nb => exact ⟨nb, rfl⟩
      | none =>
        have := find_isSome_of_mem tree.root b hb_mem
        rw [hfb] at this
        simp at this
    refine ⟨modifyAt p (dropChild a) nb, ?_⟩
    show dget (dpop (tree.index.map (fun kv =>
      (kv.1, modifyAt p (dropChild a) kv.2))) a) b = _
    rw [dget_dpop_ne _ a b hba, dget_map, hagree b, hfb]
    rfl

theorem delete_leaf_consistent (tree : TaskTree) (a p : String)
    (hc : Consistent tree) (hpar : parentIdOf tree.root a = some p)
    (hleaf : ∀ na, Task.find tree.root a = some na → na.subtasks = []) :
    Consistent (deleteFromTree tree p a) := by
  obtain ⟨hnd, hkeys, hagree⟩ := hc
  refine ⟨?_, ?_, ?_⟩
  · show ((allIds (modifyAt p (dropChild a) tree.root))).Nodup
    exact hnd.sublist (allIds_modifyAt_sublist p (dropChild a) tree.root
      (dropChild_allIds_sublist a))
  · show (((dpop (tree.index.map (fun kv =>
      (kv.1, modifyAt p (dropChild a) kv.2))) a)).map Prod.fst).Nodup
    refine keys_dpop_nodup _ a ?_
    rw [keys_map]
    exact hkeys
  · intro k
    show dget (dpop (tree.index.map (fun kv =>
      (kv.1, modifyAt p (dropChild a) kv.2))) a) k =
      Task.find (modifyAt p (dropChild a) tree.root) k
    by_cases hka : k = a
    · subst hka
      rw [dget_dpop_self, find_modify_drop tree.root k p hnd hpar]
    · rw [dget_dpop_ne _ a k hka, dget_map, hagree k]
      refine (find_modifyAt tree.root p k (dropChild a) hnd (dropChild_id a)
        ?_).symm
      intro np hnp hnk
      match np, hnp with
      | .mk i d dd st cr dl asg subs', hnp =>
        have hip : i = p := by
          have := find_id tree.root p _ hnp
          simpa [Task.id] using this
        have hik : i ≠ k := by simpa [Task.id] using hnk
        have hnd_np : (allIds (Task.mk i d dd st cr dl asg subs')).Nodup :=
          find_sub_nodup tree.root p _ hnp hnd
        have hnd_np2 : i ∉ allIdsList subs' ∧ (allIdsList subs').Nodup := by
          simpa [allIds, List.nodup_cons] using hnd_np
        have hleaf2 : ∀ c ∈ subs', c.id = a → c.subtasks = [] := by
          intro c hcmem hca
          have hpa : i ≠ a := by
            intro h
            exact hnd_np2.1 (h ▸ mem_allIdsList.mpr
              ⟨c, hcmem, hca ▸ id_mem_allIds c⟩)
          have hfl : findList subs' a = some c :=
            findList_child subs' a c hnd_np2.2 hcmem hca
          have hfnp : Task.find (Task.mk i d dd st cr dl asg subs') a =
              some c := by
            simp only [Task.find, if_neg hpa]
            exact hfl
          have := find_lift tree.root p _ hnd hnp a c hfnp
          exact hleaf c this
        show Task.find (dropChild a (Task.mk i d dd st cr dl asg subs')) k =
          Task.find (Task.mk i d dd st cr dl asg subs') k
        show Task.find (Task.mk i d dd st cr dl asg
          (subs'.filter (fun c => c.id ≠ a))) k = _
        simp only [Task.find, if_neg hik]
        exact findList_filter_leaf subs' a k hleaf2 hka

/-! Call sequences against the tree API. -/

/-- One add_subtask call of a scenario: parent id, descriptive fields, and
the uuid4 id the call will mint. -/
structure AddCall where
  mk ::
  parent_id : String
  desc : String
  dod : String
  deadline : Option String
  assignee : Option String
  freshId : String
deriving Repr

/-- Run a list of add_subtask calls, skipping failed ones; returns the final
tree together with the (parent_id, returned id) pair of every successful
call. -/
def runAdds (t : TaskTree) : List AddCall → TaskTree × List (String × String)
  | [] => (t, [])
  | c :: cs =>
    match t.add_subtask c.parent_id c.desc c.dod c.deadline c.assignee
      c.freshId with
    | .error _ => runAdds t cs
    | .ok (t2, child) =>
      let r := runAdds t2 cs
      (r.1, (c.parent_id, child.id) :: r.2)

/-- uuid4 freshness for a call list: all minted ids pairwise distinct and
absent from the starting tree. -/
def FreshIds (t : TaskTree) (cs : List AddCall) : Prop :=
  (cs.map AddCall.freshId).Nodup ∧ ∀ c ∈ cs, c.freshId ∉ allIds t.root

theorem runAdds_spec (cs : List AddCall) (t : TaskTree)
    (hc : Consistent t) (hf : FreshIds t cs) :
    Consistent (runAdds t cs).1 ∧
    (∀ y, y ∈ allIds t.root → y ∈ allIds (runAdds t cs).1.root) ∧
    (∀ k, k ∈ allIds t.root →
      parentIdOf (runAdds t cs).1.root k = parentIdOf t.root k ∧
      ∀ n, Task.find t.root k = some n → ∃ n2,
        Task.find (runAdds t cs).1.root k = some n2 ∧
        n2.status = n.status) ∧
    (∀ pc ∈ (runAdds t cs).2, ∃ n,
      Task.find (runAdds t cs).1.root pc.2 = some n ∧ n.id = pc.2 ∧
      n.status = .todo ∧
      parentIdOf (runAdds t cs).1.root pc.2 = some pc.1) := by
  induction cs generalizing t with
  | nil =>
    refine ⟨hc, fun y hy => hy, fun k hk => ⟨rfl, ?_⟩, by simp [runAdds]⟩
    intro n hn
    exact ⟨n, hn, rfl⟩
  | cons c cs ih =>
    obtain ⟨hnodup, hfresh_all⟩ := hf
    have hnodup2 : c.freshId ∉ cs.map AddCall.freshId ∧
        (cs.map AddCall.freshId).Nodup := by
      simpa [List.nodup_cons] using hnodup
    cases hstep : t.add_subtask c.parent_id c.desc c.dod c.deadline
      c.assignee c.freshId with
    | error e =>
      have heq : runAdds t (c :: cs) = runAdds t cs := by
        simp [runAdds, hstep]
      rw [heq]
      exact ih t hc ⟨hnodup2.2, fun c2 hc2 =>
        hfresh_all c2 (List.mem_cons_of_mem _ hc2)⟩
    | ok pair =>
      obtain ⟨t2, child⟩ := pair
      have hspec := add_subtask_ok_spec t c.parent_id c.desc c.dod c.deadline
        c.assignee c.freshId t2 child hc
        (hfresh_all c (by simp)) hstep
      obtain ⟨hchild, hpid_mem, hroot2, hc2, hids_iff, hpar_keep, hpar_new,
        hfind_new, hstat_keep, hparent_sub⟩ := hspec
      have hf2 : FreshIds t2 cs := by
        refine ⟨hnodup2.2, fun c2 hc2mem hmem => ?_⟩
        rcases (hids_iff c2.freshId).mp hmem with h | h
        · exact hfresh_all c2 (List.mem_cons_of_mem _ hc2mem) h
        · exact hnodup2.1 (h ▸ List.mem_map_of_mem AddCall.freshId hc2mem)
      have hihr := ih t2 hc2 hf2
      obtain ⟨hcF, hmemF, hobsF, hpairsF⟩ := hihr
      have heq : runAdds t (c :: cs) =
          ((runAdds t2 cs).1, (c.parent_id, child.id) :: (runAdds t2 cs).2) := by
        simp [runAdds, hstep]
      rw [heq]
      have hchild_id : child.id = c.freshId := by rw [hchild]; rfl
      refine ⟨hcF, ?_, ?_, ?_⟩
      · intro y hy
        exact hmemF y ((hids_iff y).mpr (Or.inl hy))
      · intro k hk
        have hk_ne : k ≠ c.freshId := by
          intro h
          exact hfresh_all c (by simp) (h ▸ hk)
        have hk2 : k ∈ allIds t2.root := (hids_iff k).mpr (Or.inl hk)
        have hobs := hobsF k hk2
        refine ⟨by rw [hobs.1, hpar_keep k hk_ne], ?_⟩
        intro n hn
        obtain ⟨n1, hn1, hst1, _⟩ := hstat_keep k n hn
        obtain ⟨n2, hn2, hst2⟩ := hobs.2 n1 hn1
        exact ⟨n2, hn2, hst2.trans hst1⟩
      · intro pc hpc
        simp only [List.mem_cons] at hpc
        rcases hpc with hpc | hpc
        · subst hpc
          have hfid_mem : c.freshId ∈ allIds t2.root :=
            (hids_iff c.freshId).mpr (Or.inr rfl)
          have hobs := hobsF c.freshId hfid_mem
          obtain ⟨n2, hn2, hst2⟩ := hobs.2 child (by
            rw [← hchild_id] at hfind_new ⊢
            exact hfind_new)
          refine ⟨n2, ?_, ?_, ?_, ?_⟩
          · simpa [hchild_id] using hn2
          · rw [hchild_id]
            exact find_id _ _ _ hn2
          · rw [hst2, hchild]
            rfl
          · show parentIdOf (runAdds t2 cs).1.root child.id = some c.parent_id
            rw [hchild_id, hobs.1, hpar_new]
        · exact hpairsF pc hpc

/-- One public mutation of the TaskTree API. -/
inductive APIStep where
  | add (c : AddCall)
  | upd (task_id : String) (kw : UpdateKwargs)
  | cls (task_id : String) (status : TaskStatus) (reason : Option String)

/-- Apply one step; a raised error leaves the tree unchanged, matching the
Python methods, which mutate nothing before raising. -/
def applyStep (t : TaskTree) : APIStep → TaskTree
  | .add c =>
    match t.add_subtask c.parent_id c.desc c.dod c.deadline c.assignee
      c.freshId with
    | .error _ => t
    | .ok (t2, _) => t2
  | .upd task_id kw =>
    match t.update task_id kw with
    | .error _ => t
    | .ok t2 => t2
  | .cls task_id st r =>
    match t.close task_id st r with
    | .error _ => t
    | .ok t2 => t2

/-- Run a list of API steps. -/
def runSteps (t : TaskTree) : List APIStep → TaskTree
  | [] => t
  | s :: rest => runSteps (applyStep t s) rest

/-- Side conditions under which the API keeps ids unique: every add mints a
fresh uuid4 id, and every update leaves the tree's node ids pairwise
distinct — which any update not supplying id or subtasks does. -/
def StepsOk (t : TaskTree) : List APIStep → Prop
  | [] => True
  | s :: rest =>
    (match s with
     | .add c => c.freshId ∉ allIds t.root
     | .upd _ _ => NoDupIds (applyStep t s).root
     | .cls _ _ _ => True) ∧ StepsOk (applyStep t s) rest

theorem applyStep_consistent (t : TaskTree) (s : APIStep) (hc : Consistent t)
    (hok : match s with
      | .add c => c.freshId ∉ allIds t.root
      | .upd _ _ => NoDupIds (applyStep t s).root
      | .cls _ _ _ => True) :
    Consistent (applyStep t s) := by
  cases s with
  | add c =>
    cases hstep : t.add_subtask c.parent_id c.desc c.dod c.deadline
      c.assignee c.freshId with
    | error e => simpa [applyStep, hstep] using hc
    | ok pair =>
      obtain ⟨t2, child⟩ := pair
      have h2 := (add_subtask_ok_spec t c.parent_id c.desc c.dod c.deadline
        c.assignee c.freshId t2 child hc hok hstep).2.2.2.1
      simpa [applyStep, hstep] using h2
  | upd task_id kw =>
    cases hstep : t.update task_id kw with
    | error e => simpa [applyStep, hstep] using hc
    | ok t2 =>
      have hnd2 : NoDupIds t2.root := by simpa [applyStep, hstep] using hok
      have h2 := (update_ok_spec t task_id kw t2 hstep).2.2 hnd2
      simpa [applyStep, hstep] using h2
  | cls task_id st r =>
    cases hstep : t.close task_id st r with
    | error e => simpa [applyStep, hstep] using hc
    | ok t2 =>
      have h2 := (close_consistent t task_id st r t2 hc hstep).1
      simpa [applyStep, hstep] using h2

theorem runSteps_consistent (steps : List APIStep) (t : TaskTree)
    (hc : Consistent t) (hok : StepsOk t steps) :
    Consistent (runSteps t steps) := by
  induction steps generalizing t with
  | nil => exact hc
  | cons s rest ih =>
    obtain ⟨hs, hrest⟩ := hok
    exact ih (applyStep t s) (applyStep_consistent t s hc hs) hrest

/-! Serialization round trip. -/

theorem ofValue_value (st : TaskStatus) :
    TaskStatus.ofValue st.value = some st := by
  cases st <;> rfl

mutual

theorem from_dict_to_dict (t : Task) : Task.from_dict t.to_dict = some t := by
  match t with
  | .mk i d dd st cr dl a subs =>
    show Task.from_dict (.mk i d dd st.value cr (toDictList subs) dl a) = _
    simp [Task.from_dict, ofValue_value, fromDictList_toDictList subs]

theorem fromDictList_toDictList (ts : List Task) :
    fromDictList (toDictList ts) = some ts := by
  match ts with
  | [] => rfl
  | t :: rest =>
    show fromDictList (t.to_dict :: toDictList rest) = _
    simp [fromDictList, from_dict_to_dict t, fromDictList_toDictList rest]

end

/-! Concrete scenario data. -/

/-- Root of the concrete scenario tree. -/
def demoRoot : Task := .mk "r" "Root task" "Root" .todo none none none []

/-- The add_subtask calls building the r, a, b, c chain of the scenario. -/
def demoCalls : List AddCall :=
  [⟨"r", "Level1", "DoD1", none, none, "a"⟩,
   ⟨"a", "Level2", "DoD2", none, none, "b"⟩,
   ⟨"b", "Level3", "DoD3", none, none, "c"⟩]

/-- The scenario tree r, a, b, c built through the tree API. -/
def demoTree : TaskTree := (runAdds (TaskTree.new demoRoot) demoCalls).1

/-- An in-memory store holding the scenario tree under tree id 1. -/
def demoDb : InMemoryDatabase := ⟨[("1", demoTree)], 1⟩

theorem demoTree_consistent : Consistent demoTree :=
  (runAdds_spec demoCalls (TaskTree.new demoRoot)
    (new_consistent demoRoot (by simp [NoDupIds, demoRoot, allIds, allIdsList]))
    ⟨by decide, by decide⟩).1

/-! Claim C1. -/

/-- C1 counterexample: in the r, a, b, c chain, after delete_task removes a,
the store still returns b and c through get_task — only the deleted task's
own index entry is popped — refuting the claimed whole-subtree removal. -/
theorem C1_subtree_delete_counterexample :
    ∃ db2, InMemoryDatabase.delete_task demoDb "1" "a" = .ok db2 ∧
      db2.get_task "1" "a" = .error "Task a not found in tree 1" ∧
      (∃ d1, db2.get_task "1" "b" = .ok d1) ∧
      (∃ d2, db2.get_task "1" "c" = .ok d2) :=
  ⟨_, rfl, rfl, ⟨_, rfl⟩, ⟨_, rfl⟩⟩

/-- C1 (amended): deleting a non-root task A with parent P removes A from
P's child list and from the index — get(A) is not-found and A is no longer
reachable — but the index entries of A's descendants B and C survive the
deletion, so a subsequent get on B or on C still returns a node. -/
theorem C1_delete_nonroot_amended (db : InMemoryDatabase) (tid : String)
    (tree : TaskTree) (a p b c : String)
    (hdb : dget db.trees tid = some tree) (hc : Consistent tree)
    (hpar : parentIdOf tree.root a = some p)
    (hb : parentIdOf tree.root b = some a)
    (hcc : parentIdOf tree.root c = some b)
    (hba : b ≠ a) (hca : c ≠ a) :
    ∃ db2, db.delete_task tid a = .ok db2 ∧
      ∃ tree2, dget db2.trees tid = some tree2 ∧
        tree2.get a = none ∧
        db2.get_task tid a =
          .error ("Task " ++ a ++ " not found in tree " ++ tid) ∧
        Task.find tree2.root a = none ∧
        (∀ np, Task.find tree.root p = some np →
          ∃ np2, Task.find tree2.root p = some np2 ∧
            ∀ ch ∈ np2.subtasks, ch.id ≠ a) ∧
        (∃ nb, tree2.get b = some nb) ∧
        (∃ nc, tree2.get c = some nc) := by
  obtain ⟨db2, hok, hdget2, hget_a, hfind_a, hparent, hsurvive⟩ :=
    delete_nonroot_spec db tid a p tree hdb hc hpar
  refine ⟨db2, hok, deleteFromTree tree p a, hdget2, hget_a, ?_, hfind_a,
    ?_, ?_, ?_⟩
  · unfold InMemoryDatabase.get_task
    rw [hdget2]
    simp only [hget_a]
  · intro np hnp
    refine ⟨dropChild a np, hparent np hnp, ?_⟩
    match np with
    | .mk i d dd st cr dl asg subs =>
      intro ch hch
      show ch.id ≠ a
      have := List.mem_filter.mp hch
      simpa using this.2
  · exact hsurvive b hba (parentIdOf_mem tree.root b a hb).1
  · exact hsurvive c hca (parentIdOf_mem tree.root c b hcc).1

/-- C1 witness: the amended theorem applied to the concrete r, a, b, c
scenario store. -/
theorem C1_delete_nonroot_amended_witness :
    ∃ db2, InMemoryDatabase.delete_task demoDb "1" "a" = .ok db2 ∧
      ∃ tree2, dget db2.trees "1" = some tree2 ∧
        tree2.get "a" = none ∧ Task.find tree2.root "a" = none ∧
        (∃ nb, tree2.get "b" = some nb) ∧
        (∃ nc, tree2.get "c" = some nc) := by
  obtain ⟨db2, hok, tree2, hdget2, hget_a, _, hfind_a, _, hb, hc2⟩ :=
    C1_delete_nonroot_amended demoDb "1" demoTree "a" "r" "b" "c" rfl
      demoTree_consistent (by decide) (by decide) (by decide) (by decide)
      (by decide)
  exact ⟨db2, hok, tree2, hdget2, hget_a, hfind_a, hb, hc2⟩

/-! Claim C2. -/

/-- C2 evaluation at the failing input: deleting the root of tree 1 returns
success and silently removes the whole tree from the store, instead of
failing with a protected-operation error and leaving the store unchanged —
the behavior the specification and test_cannot_delete_root_task demand. -/
theorem C2_root_delete_bug_eval :
    InMemoryDatabase.delete_task demoDb "1" "r" =
      .ok ⟨[], 1⟩ ∧
    dget (InMemoryDatabase.mk [] 1).trees "1" = none :=
  ⟨rfl, rfl⟩

/-! Claim C3. -/

/-- C3 counterexample: after delete_task on a (which has descendants), the
index still maps b to a node although b is no longer reachable from the
root, so the index does not equal the set of reachable nodes. -/
theorem C3_index_invariant_counterexample :
    ∃ db2, InMemoryDatabase.delete_task demoDb "1" "a" = .ok db2 ∧
      ∃ tree2, dget db2.trees "1" = some tree2 ∧
        (∃ nb, dget tree2.index "b" = some nb) ∧
        Task.find tree2.root "b" = none :=
  ⟨_, rfl, _, rfl, ⟨_, rfl⟩, rfl⟩

/-- C3 (amended): the index/tree consistency invariant — the index maps
exactly the reachable ids to their nodes, each key once — holds after
construction and is preserved by add_subtask with a fresh id, by update
whenever the updated tree's ids stay unique, by close, and by delete_task
of a childless task; deleting a task with subtasks pops only its own index
entry, leaving its unreachable descendants behind (see the
counterexample). -/
theorem C3_index_invariant_amended :
    (∀ root : Task, NoDupIds root → Consistent (TaskTree.new root)) ∧
    (∀ (t : TaskTree) (pid desc dod : String) (dl asg : Option String)
      (fid : String) (t2 : TaskTree) (child : Task), Consistent t →
      fid ∉ allIds t.root →
      TaskTree.add_subtask t pid desc dod dl asg fid = .ok (t2, child) →
      Consistent t2) ∧
    (∀ (t : TaskTree) (tid : String) (kw : UpdateKwargs) (t2 : TaskTree),
      Consistent t → TaskTree.update t tid kw = .ok t2 →
      NoDupIds t2.root → Consistent t2) ∧
    (∀ (t : TaskTree) (tid : String) (st : TaskStatus) (r : Option String)
      (t2 : TaskTree), Consistent t → TaskTree.close t tid st r = .ok t2 →
      Consistent t2) ∧
    (∀ (db : InMemoryDatabase) (tid : String) (tree : TaskTree)
      (a p : String) (db2 : InMemoryDatabase), dget db.trees tid = some tree →
      Consistent tree → parentIdOf tree.root a = some p →
      (∀ na, Task.find tree.root a = some na → na.subtasks = []) →
      db.delete_task tid a = .ok db2 →
      ∀ tree2, dget db2.trees tid = some tree2 → Consistent tree2) := by
  refine ⟨new_consistent, ?_, ?_, ?_, ?_⟩
  · intro t pid desc dod dl asg fid t2 child hc hfresh hok
    exact (add_subtask_ok_spec t pid desc dod dl asg fid t2 child hc hfresh
      hok).2.2.2.1
  · intro t tid kw t2 hc hok hnd2
    exact (update_ok_spec t tid kw t2 hok).2.2 hnd2
  · intro t tid st r t2 hc hok
    exact (close_consistent t tid st r t2 hc hok).1
  · intro db tid tree a p db2 hdb hc hpar hleaf hok tree2 hdget2
    obtain ⟨db2', hok', hdget', _⟩ := delete_nonroot_spec db tid a p tree hdb
      hc hpar
    rw [hok'] at hok
    have hdb2 : db2' = db2 := by
      cases hok
      rfl
    subst hdb2
    rw [hdget'] at hdget2
    have : deleteFromTree tree p a = tree2 := Option.some_inj.mp hdget2
    subst this
    exact delete_leaf_consistent tree a p hc hpar hleaf

/-- C3 witness: the amended theorem applied concretely — a freshly built
one-node tree is consistent, and deleting the childless task c from the
scenario store keeps the stored tree consistent. -/
theorem C3_index_invariant_amended_witness :
    Consistent (TaskTree.new demoRoot) ∧
    ∃ db2, InMemoryDatabase.delete_task demoDb "1" "c" = .ok db2 ∧
      ∃ tree2, dget db2.trees "1" = some tree2 ∧ Consistent tree2 := by
  have h := C3_index_invariant_amended
  refine ⟨h.1 demoRoot (by unfold NoDupIds; decide), ?_⟩
  refine ⟨_, rfl, _, rfl, ?_⟩
  exact h.2.2.2.2 demoDb "1" demoTree "c" "b" _ rfl demoTree_consistent
    (by decide)
    (fun na hna => by
      have h2 : Task.mk "c" "Level3" "DoD3" .todo none none none [] = na :=
        Option.some_inj.mp hna
      rw [← h2]
      rfl)
    rfl _ rfl

/-! Claim C4. -/

/-- C4: serialization round trip is lossless — deserializing a node's (or a
whole tree's) structured form and re-serializing yields a field-for-field
equal structured form, every field including the status string and the
ordered subtask list being preserved; this holds for all trees, in
particular those of depth at least three. -/
theorem C4_serialization_roundtrip :
    (∀ tk : Task, Task.from_dict tk.to_dict = some tk) ∧
    (∀ t : TaskTree,
      (TaskTree.from_dict t.to_dict).map TaskTree.to_dict =
        some t.to_dict) := by
  refine ⟨from_dict_to_dict, ?_⟩
  intro t
  show Option.map TaskTree.to_dict
    (Option.map TaskTree.new (Task.from_dict t.root.to_dict)) =
    some t.root.to_dict
  rw [from_dict_to_dict t.root]
  rfl

/-! Claim C5. -/

/-- C5: add_subtask fails with a not-found KeyError when parent_id is absent
from the index; on success the returned child is a freshly minted todo leaf
that has been appended to the parent's child list and inserted into the
index, with its parent resolving to parent_id; and for every sequence of
add_subtask calls on a freshly created tree, every id returned by a call
resolves through get to a todo node whose parent is that call's
parent_id. -/
theorem C5_add_subtask_spec (t : TaskTree) (pid desc dod : String)
    (dl asg : Option String) (fid : String) (rid rdesc rdod : String)
    (rst : TaskStatus) (rcr rdl rasg : Option String)
    (calls : List AddCall) :
    (dget t.index pid = none →
      t.add_subtask pid desc dod dl asg fid =
        .error ("Parent id " ++ pid ++ " not found in tree")) ∧
    (∀ t2 child, Consistent t → fid ∉ allIds t.root →
      t.add_subtask pid desc dod dl asg fid = .ok (t2, child) →
      child = Task.mk fid desc dod .todo none dl asg [] ∧
      t2.get fid = some child ∧
      parentIdOf t2.root fid = some pid ∧
      (∀ np, Task.find t.root pid = some np →
        Task.find t2.root pid = some (growChild child np))) ∧
    (FreshIds (TaskTree.new (Task.mk rid rdesc rdod rst rcr rdl rasg []))
        calls →
      ∀ pc ∈ (runAdds (TaskTree.new
          (Task.mk rid rdesc rdod rst rcr rdl rasg [])) calls).2,
        ∃ n, (runAdds (TaskTree.new
            (Task.mk rid rdesc rdod rst rcr rdl rasg [])) calls).1.get pc.2 =
          some n ∧ n.id = pc.2 ∧ n.status = .todo ∧
          parentIdOf (runAdds (TaskTree.new
            (Task.mk rid rdesc rdod rst rcr rdl rasg [])) calls).1.root
            pc.2 = some pc.1) := by
  refine ⟨?_, ?_, ?_⟩
  · intro h
    unfold TaskTree.add_subtask
    rw [h]
  · intro t2 child hc hfresh hok
    obtain ⟨hchild, hpid_mem, hroot2, hc2, _, _, hpar_new, hfind_new, _,
      hparent_sub⟩ :=
      add_subtask_ok_spec t pid desc dod dl asg fid t2 child hc hfresh hok
    refine ⟨hchild, ?_, hpar_new, hparent_sub⟩
    show dget t2.index fid = some child
    rw [hc2.2.2 fid]
    exact hfind_new
  · intro hfr pc hpc
    have hc0 : Consistent (TaskTree.new
        (Task.mk rid rdesc rdod rst rcr rdl rasg [])) :=
      new_consistent _ (by unfold NoDupIds; simp [allIds, allIdsList])
    have hrun := runAdds_spec calls _ hc0 hfr
    obtain ⟨n, hfind, hid, hstatus, hpar⟩ := hrun.2.2.2 pc hpc
    refine ⟨n, ?_, hid, hstatus, hpar⟩
    show dget (runAdds _ calls).1.index pc.2 = some n
    rw [hrun.1.2.2 pc.2]
    exact hfind

/-- C5 witness: in the scenario tree, the id b returned by the second call
resolves through get to a todo node whose parent is a. -/
theorem C5_add_subtask_spec_witness :
    ∃ n, demoTree.get "b" = some n ∧ n.id = "b" ∧
      n.status = .todo ∧ parentIdOf demoTree.root "b" = some "a" := by
  have h := (C5_add_subtask_spec (TaskTree.new demoRoot) "r" "d" "dd" none
    none "zz" "r" "Root task" "Root" .todo none none none demoCalls).2.2
  exact h ⟨by decide, by decide⟩ ("a", "b") (by decide)

/-! Claim C6. -/

/-- C6: Task.close raises ValueError exactly when the requested status is
outside done and cancelled — the error is raised before any assignment, so
the node is untouched on failure — and on success it sets status and
close_reason together to the given values, leaving id, description, dod,
deadline, assignee and the subtask list unchanged. -/
theorem C6_close_validation (t : Task) (st : TaskStatus)
    (r : Option String) :
    ((∃ e, Task.close t st r = .error e) ↔
      ¬(st = .done ∨ st = .cancelled)) ∧
    ((st = .done ∨ st = .cancelled) →
      Task.close t st r = .ok (closeFields st r t)) ∧
    (∀ t2, Task.close t st r = .ok t2 →
      t2.status = st ∧ t2.close_reason = r ∧ t2.id = t.id ∧
      t2.description = t.description ∧ t2.dod = t.dod ∧
      t2.deadline = t.deadline ∧ t2.assignee = t.assignee ∧
      t2.subtasks = t.subtasks) := by
  by_cases h : st = .done ∨ st = .cancelled
  · refine ⟨⟨fun ⟨e, he⟩ => by simp [Task.close, h] at he,
      fun h2 => absurd h h2⟩, fun _ => by simp [Task.close, h], ?_⟩
    intro t2 h2
    simp only [Task.close, if_pos h] at h2
    cases h2
    match t with
    | .mk i d dd st0 cr dl a subs =>
      exact ⟨rfl, rfl, rfl, rfl, rfl, rfl, rfl, rfl⟩
  · refine ⟨⟨fun _ => h,
      fun _ => ⟨"Only DONE or CANCELLED are allowed for close",
        by simp [Task.close, h]⟩⟩,
      fun h2 => absurd h2 h, ?_⟩
    intro t2 h2
    simp [Task.close, h] at h2

/-- C6 witness: closing with done and a reason succeeds setting both fields;
closing with todo fails. -/
theorem C6_close_validation_witness :
    Task.close (Task.mk "x" "Ship" "DoD" .todo none none none []) .done
      (some "shipped") =
      .ok (Task.mk "x" "Ship" "DoD" .done (some "shipped") none none []) ∧
    ∃ e, Task.close (Task.mk "x" "Ship" "DoD" .todo none none none []) .todo
      (some "nope") = .error e := by
  refine ⟨?_, ?_⟩
  · exact (C6_close_validation (Task.mk "x" "Ship" "DoD" .todo none none
      none []) .done (some "shipped")).2.1 (Or.inl rfl)
  · exact (C6_close_validation (Task.mk "x" "Ship" "DoD" .todo none none
      none []) .todo (some "nope")).1.mpr (by decide)

/-! Claim C7. -/

/-- C7: on an id absent from the index, TaskTree.close is a silent no-op
returning the tree unchanged, whereas TaskTree.update fails fast with a
not-found KeyError. -/
theorem C7_close_soft_update_failfast (t : TaskTree) (task_id : String)
    (st : TaskStatus) (r : Option String) (kw : UpdateKwargs)
    (h : t.get task_id = none) :
    t.close task_id st r = .ok t ∧
    t.update task_id kw =
      .error ("Task id " ++ task_id ++ " not found") := by
  constructor
  · unfold TaskTree.close
    rw [show dget t.index task_id = none from h]
  · unfold TaskTree.update
    rw [show dget t.index task_id = none from h]

/-- C7 witness: the scenario tree has no task zzz; close on it no-ops and
update on it errors. -/
theorem C7_close_soft_update_failfast_witness :
    TaskTree.close demoTree "zzz" .done none = .ok demoTree ∧
    TaskTree.update demoTree "zzz" (UpdateKwargs.none') =
      .error "Task id zzz not found" := by
  exact C7_close_soft_update_failfast demoTree "zzz" .done none
    UpdateKwargs.none' rfl

/-! Claim C8. -/

/-- The kwargs of an update call supplying only a description. -/
def descPatch (x : String) : UpdateKwargs :=
  ⟨none, some x, none, none, none, none, none, none⟩

/-- C8: frame property of sparse update — an update supplying only a
description changes only the description, leaving id, dod, status,
close_reason, deadline, assignee and the subtask list untouched; and in
general every field omitted or supplied as the None sentinel is left
untouched. -/
theorem C8_update_frame (t : Task) (x : String) (kw : UpdateKwargs) :
    ((Task.update t (descPatch x)).description = x ∧
     (Task.update t (descPatch x)).id = t.id ∧
     (Task.update t (descPatch x)).dod = t.dod ∧
     (Task.update t (descPatch x)).status = t.status ∧
     (Task.update t (descPatch x)).close_reason = t.close_reason ∧
     (Task.update t (descPatch x)).deadline = t.deadline ∧
     (Task.update t (descPatch x)).assignee = t.assignee ∧
     (Task.update t (descPatch x)).subtasks = t.subtasks) ∧
    ((kw.id = none → (Task.update t kw).id = t.id) ∧
     (kw.description = none →
       (Task.update t kw).description = t.description) ∧
     (kw.dod = none → (Task.update t kw).dod = t.dod) ∧
     (kw.status = none → (Task.update t kw).status = t.status) ∧
     (kw.close_reason = none →
       (Task.update t kw).close_reason = t.close_reason) ∧
     (kw.deadline = none → (Task.update t kw).deadline = t.deadline) ∧
     (kw.assignee = none → (Task.update t kw).assignee = t.assignee) ∧
     (kw.subtasks = none → (Task.update t kw).subtasks = t.subtasks)) := by
  match t with
  | .mk i d dd st cr dl a subs =>
    refine ⟨⟨rfl, rfl, rfl, rfl, rfl, rfl, rfl, rfl⟩,
      ?_, ?_, ?_, ?_, ?_, ?_, ?_, ?_⟩ <;>
      intro h <;> simp [Task.update, h, Task.id, Task.description, Task.dod,
        Task.status, Task.close_reason, Task.deadline, Task.assignee,
        Task.subtasks]

/-- C8 witness: updating a concrete task with only a description rewrites
exactly the description, and the empty kwargs change nothing. -/
theorem C8_update_frame_witness :
    (Task.update (Task.mk "x" "Old" "DoD" .in_progress (some "why")
      (some "2031-01-01") (some "bob") []) (descPatch "New")).description =
      "New" ∧
    (Task.update (Task.mk "x" "Old" "DoD" .in_progress (some "why")
      (some "2031-01-01") (some "bob") []) (descPatch "New")).assignee =
      some "bob" ∧
    (Task.update (Task.mk "x" "Old" "DoD" .in_progress (some "why")
      (some "2031-01-01") (some "bob") []) UpdateKwargs.none').dod = "DoD" := by
  have h1 := (C8_update_frame (Task.mk "x" "Old" "DoD" .in_progress
    (some "why") (some "2031-01-01") (some "bob") []) "New"
    UpdateKwargs.none').1
  have h2 := (C8_update_frame (Task.mk "x" "Old" "DoD" .in_progress
    (some "why") (some "2031-01-01") (some "bob") []) "New"
    UpdateKwargs.none').2
  exact ⟨h1.1, h1.2.2.2.2.2.2.1, h2.2.2.1 rfl⟩

/-! Claim C9. -/

/-- The kwargs of an update call supplying a new id. -/
def idPatch : UpdateKwargs :=
  ⟨some "hacked", none, none, none, none, none, none, none⟩

/-- C9 counterexample: the generic update accepts an id keyword like any
other attribute and overwrites it — updating task a of the scenario tree
with id := hacked makes the old id unresolvable and the new id present, so
the id is not immutable under the public API. -/
theorem C9_id_update_counterexample :
    ∃ t2, TaskTree.update demoTree "a" idPatch = .ok t2 ∧
      (∃ n, Task.find t2.root "hacked" = some n) ∧
      Task.find t2.root "a" = none ∧ t2.get "a" = none :=
  ⟨_, rfl, ⟨_, rfl⟩, rfl, rfl⟩

/-- C9 (amended): a task's id is generated once at creation and is never
changed by add_subtask, close, or any update whose kwargs omit id; only the
generic update, when explicitly supplied an id value, overwrites it. -/
theorem C9_id_immutable_amended (t : Task) (kw : UpdateKwargs)
    (st : TaskStatus) (r : Option String) (desc dod : String)
    (dl asg : Option String) (fid : String) (h : kw.id = none) :
    (Task.update t kw).id = t.id ∧
    (∀ t2, Task.close t st r = .ok t2 → t2.id = t.id) ∧
    (Task.add_subtask t desc dod dl asg fid).1.id = t.id := by
  refine ⟨update_id kw t h, ?_, ?_⟩
  · intro t2 h2
    unfold Task.close at h2
    by_cases hst : st = TaskStatus.done ∨ st = TaskStatus.cancelled
    · rw [if_pos hst] at h2
      cases h2
      exact closeFields_id st r t
    · rw [if_neg hst] at h2
      simp at h2
  · match t with
    | .mk i d dd st0 cr dl0 a subs => rfl

/-- C9 witness: the amended theorem at a concrete task — an update without
an id keyword, a successful close, and an add_subtask all keep the id. -/
theorem C9_id_immutable_amended_witness :
    (Task.update (Task.mk "keep" "D" "DD" .todo none none none [])
      (descPatch "New")).id = "keep" ∧
    (Task.add_subtask (Task.mk "keep" "D" "DD" .todo none none none [])
      "c" "cd" none none "kid").1.id = "keep" := by
  have h := C9_id_immutable_amended
    (Task.mk "keep" "D" "DD" .todo none none none []) (descPatch "New")
    .done none "c" "cd" none none "kid" rfl
  exact ⟨h.1, h.2.2⟩

/-! Claim C10. -/

/-- The API steps of the counterexample: one add, then an update that
renames the child to the root's id. -/
def C10steps : List APIStep :=
  [.add ⟨"r", "Level1", "DoD1", none, none, "a"⟩,
   .upd "a" ⟨some "r", none, none, none, none, none, none, none⟩]

/-- The counterexample tree, built solely through the tree API. -/
def C10tree : TaskTree := runSteps (TaskTree.new demoRoot) C10steps

/-- C10 counterexample: on a tree built solely through the TaskTree API —
construction, add_subtask, update — the indexed get and the recursive find
disagree at id r: get returns the renamed child while find returns the
root, because the duplicate id made the rebuilt index shadow the root. -/
theorem C10_get_find_counterexample :
    (C10tree.get "r").map Task.description = some "Level1" ∧
    (C10tree.root.find "r").map Task.description = some "Root task" ∧
    C10tree.get "r" ≠ C10tree.root.find "r" := by
  refine ⟨rfl, rfl, fun h => ?_⟩
  have h2 : some "Level1" = some "Root task" :=
    congrArg (fun o => Option.map Task.description o) h
  exact absurd (Option.some_inj.mp h2) (by decide)

/-- C10 (amended): for every tree built from a freshly created root solely
through the TaskTree API — construction, add_subtask, update, close — in
which every add mints a fresh uuid4 id and every update keeps the tree's
node ids pairwise distinct (as any update not supplying id or subtasks
does), the O(1) indexed get returns exactly the same node as the recursive
depth-first root.find on every id string, both returning none for absent
ids. -/
theorem C10_get_refines_find_amended (rid rdesc rdod : String)
    (rst : TaskStatus) (rcr rdl rasg : Option String)
    (steps : List APIStep)
    (hok : StepsOk (TaskTree.new
      (Task.mk rid rdesc rdod rst rcr rdl rasg [])) steps) :
    ∀ k, (runSteps (TaskTree.new
        (Task.mk rid rdesc rdod rst rcr rdl rasg [])) steps).get k =
      (runSteps (TaskTree.new
        (Task.mk rid rdesc rdod rst rcr rdl rasg [])) steps).root.find k := by
  have hc0 : Consistent (TaskTree.new
      (Task.mk rid rdesc rdod rst rcr rdl rasg [])) :=
    new_consistent _ (by unfold NoDupIds; simp [allIds, allIdsList])
  intro k
  exact (runSteps_consistent steps _ hc0 hok).2.2 k

/-- The API steps of the C10 witness: an add, a scalar update and a close,
all id-preserving. -/
def C10okSteps : List APIStep :=
  [.add ⟨"r", "Level1", "DoD1", none, none, "a"⟩,
   .upd "a" (descPatch "Renamed"),
   .cls "a" .done (some "ok")]

/-- C10 witness: the amended theorem applied to a concrete three-step
history; get and find agree on the mutated id a. -/
theorem C10_get_refines_find_amended_witness :
    (runSteps (TaskTree.new
      (Task.mk "r" "Root task" "Root" .todo none none none []))
      C10okSteps).get "a" =
    (runSteps (TaskTree.new
      (Task.mk "r" "Root task" "Root" .todo none none none []))
      C10okSteps).root.find "a" := by
  refine C10_get_refines_find_amended "r" "Root task" "Root" .todo none none
    none C10okSteps ⟨?_, ?_, trivial, trivial⟩ "a"
  · decide
  · unfold NoDupIds
    decide

end TaskTracker
